import Mathlib

/-!
# Streaming histogram sketch (`src/streaming/histogram.cpp`)

A shallow embedding of the `Histogram` class: the label store
(`histogram_map`), the consistent-weighted-sampling hash computed per slot,
the decay performed every `DECAY` updates, and the sketch arrays.

Modelling choices.

* `double` is a linearly ordered field `α` that carries the three `<math.h>`
  primitives the code calls (`M_E`, `pow`, `log`); every definition is generic
  (and computable) in `α`, and the theorems that need analysis take `α = ℝ`.
* `hash[i]` may hold `+infinity` (its value before any data), so it has type
  `WithTop α`.
* `std::map<unsigned long, hist_elem>` is an association list that the
  operations keep in ascending key order; iteration order is list order.
* `SKETCH_SIZE`, `DECAY` and `LAMBDA` come from a header that is not part of
  the sources: `SKETCH_SIZE` is the parameter `K`, `DECAY` and `LAMBDA` are
  arguments of `update`.
* The random generators are an external source of draws: the values drawn
  during one call are an argument of that call (`Draws`).
-/

/-- The `<math.h>` names used by the code: the constant `M_E` and the
functions `pow` and `log`. -/
class MathH (α : Type) where
  /-- Euler's number, `M_E`. -/
  M_E : α
  /-- The function `pow(x, y)`. -/
  pow : α → α → α
  /-- The function `log(x)` (natural logarithm). -/
  log : α → α

/-- Real-number reading of `<math.h>`: `M_E = e`, `pow` is the real power and
`log` the natural logarithm. -/
noncomputable instance instMathHReal : MathH ℝ where
  M_E := Real.exp 1
  pow x y := x ^ y
  log := Real.log

/-- The element type of the map, `struct hist_elem`: the count and the three
per-slot parameter arrays. -/
structure hist_elem (α : Type) (K : Nat) where
  cnt : α
  r : Fin K → α
  beta : Fin K → α
  c : Fin K → α

/-- The values returned by `gamma_dist(r_generator)`, `uniform_dist(beta_generator)`
and `gamma_dist(c_generator)` in the `SKETCH_SIZE` iterations of the loop that
fills `new_elem` during one call. -/
structure Draws (α : Type) (K : Nat) where
  r : Fin K → α
  beta : Fin K → α
  c : Fin K → α

/-- The state of the `Histogram` object. -/
structure Histogram (α : Type) (K : Nat) where
  histogram_map : List (Nat × hist_elem α K)
  size : Int
  t : Int
  sketch : Fin K → Nat
  hash : Fin K → WithTop α
  histogram_map_lock : Bool

namespace Histogram

variable {α : Type} {K : Nat}

/-- Lookup in the map: the element stored under key `k`, if any. -/
def map_find {V : Type} (k : Nat) : List (Nat × V) → Option V
  | [] => none
  | p :: m => if p.1 = k then some p.2 else map_find k m

/-- Where a new key goes: before the first larger key. -/
def map_place {V : Type} (k : Nat) (v : V) : List (Nat × V) → List (Nat × V)
  | [] => [(k, v)]
  | p :: m => if k < p.1 then (k, v) :: p :: m else p :: map_place k v m

/-- The call `std::map::insert(pair(k, v))`: the map is left alone when it
already has the key, otherwise the pair is added in key order. The result is
the map, the element the returned iterator points at, and the returned flag. -/
def map_insert {V : Type} (k : Nat) (v : V) (m : List (Nat × V)) :
    List (Nat × V) × V × Bool :=
  match map_find k m with
  | some e => (m, e, false)
  | none => (map_place k v m, v, true)

/-- A write through an iterator that points at key `k`. -/
def map_set {V : Type} (k : Nat) (v : V) : List (Nat × V) → List (Nat × V)
  | [] => []
  | p :: m => if p.1 = k then (p.1, v) :: m else p :: map_set k v m

/-- A loop `for (int i = 0; i < SKETCH_SIZE; i++) body`. -/
def forSlots {σ : Type} (K : Nat) (body : Fin K → σ → σ) (init : σ) : σ :=
  (List.finRange K).foldl (fun st i => body i st) init

/-- The element `new_elem` built at the start of `insert_label` and `update`:
count 1 and the freshly drawn arrays. -/
def new_elem [One α] (g : Draws α K) : hist_elem α K :=
  { cnt := 1, r := g.r, beta := g.beta, c := g.c }

/-- The hash value `a` of lines 100-101 (and 120-121, 124-125), from a count
and the parameters of one slot. -/
def score [MathH α] [Sub α] [Mul α] [Div α] (cnt r beta c : α) : α :=
  let y := MathH.pow MathH.M_E (MathH.log cnt - r * beta)
  c / (y * MathH.pow MathH.M_E r)

/-- The method `Histogram::insert_label` (lines 36-55). -/
def insert_label [One α] [Add α] (s : Histogram α K) (label : Nat) (g : Draws α K) :
    Histogram α K :=
  let rst := map_insert label (new_elem g) s.histogram_map
  if rst.2.2 = false then
    { s with histogram_map := map_set label { rst.2.1 with cnt := rst.2.1.cnt + 1 } rst.1 }
  else
    { s with histogram_map := rst.1, size := s.size + 1 }

/-- The test of line 67, seen from the state before the call: after `t++`
the counter has reached `DECAY`. -/
def decay_fires (DECAY : Int) (s : Histogram α K) : Prop :=
  s.t + 1 ≥ DECAY

instance (DECAY : Int) (s : Histogram α K) : Decidable (decay_fires DECAY s) :=
  inferInstanceAs (Decidable (s.t + 1 ≥ DECAY))

/-- The body of the `if` of lines 67-76: every count and every `hash[i]` is
multiplied by `pow(M_E, -LAMBDA)` and `t` is reset. The factor is positive, so
an infinite `hash[i]` stays infinite. -/
def aging_pass [MathH α] [Mul α] [Neg α] (LAMBDA : α) (s : Histogram α K) : Histogram α K :=
  let m := s.histogram_map.map fun (it : Nat × hist_elem α K) =>
    (it.1, { it.2 with cnt := it.2.cnt * MathH.pow MathH.M_E (-LAMBDA) })
  let s1 := { s with histogram_map := m }
  let s2 := forSlots K (fun i st =>
    let h := (st.hash i).map fun x => x * MathH.pow MathH.M_E (-LAMBDA)
    { st with hash := Function.update st.hash i h }) s1
  { s2 with t := 0 }

/-- Lines 65-76 of `update`: the tick and, when due, the aging pass. -/
def update_decay [MathH α] [Mul α] [Neg α] (DECAY : Int) (LAMBDA : α) (s : Histogram α K) :
    Histogram α K :=
  let s1 := { s with t := s.t + 1 }
  if s1.t ≥ DECAY then aging_pass LAMBDA s1 else s1

/-- Lines 78-95 of `update`: the insertion of `new_elem` or the increment of
the stored count. The second component is the element `rst.first->second`. -/
def update_insert [One α] [Add α] (s : Histogram α K) (label : Nat) (g : Draws α K) :
    Histogram α K × hist_elem α K :=
  let rst := map_insert label (new_elem g) s.histogram_map
  if rst.2.2 = false then
    let e : hist_elem α K := { rst.2.1 with cnt := rst.2.1.cnt + 1 }
    ({ s with histogram_map := map_set label e rst.1 }, e)
  else
    ({ s with histogram_map := rst.1, size := s.size + 1 }, rst.2.1)

/-- Lines 97-107 of `update`: the hash loop over the slots, for the element `e`
stored under `label`. -/
def update_hash [MathH α] [LinearOrderedField α] (s : Histogram α K) (label : Nat)
    (e : hist_elem α K) : Histogram α K :=
  forSlots K (fun i st =>
    let y := MathH.pow MathH.M_E (MathH.log e.cnt - e.r i * e.beta i)
    let a := e.c i / (y * MathH.pow MathH.M_E (e.r i))
    if (a : WithTop α) < st.hash i then
      { st with hash := Function.update st.hash i (a : WithTop α),
                sketch := Function.update st.sketch i label }
    else st) s

/-- The method `Histogram::update` (lines 64-110). -/
def update [MathH α] [LinearOrderedField α] (DECAY : Int) (LAMBDA : α) (s : Histogram α K)
    (label : Nat) (g : Draws α K) : Histogram α K :=
  let s1 := update_decay DECAY LAMBDA s
  let rst := update_insert s1 label g
  update_hash rst.1 label rst.2

/-- The inner loop of `create_sketch` (lines 123-130) for slot `i`: the scan of
the whole map with the running best `(a_i, s_i)`. -/
def create_sketch_scan [MathH α] [LinearOrderedField α] (i : Fin K)
    (m : List (Nat × hist_elem α K)) (init : α × Nat) : α × Nat :=
  m.foldl (fun best it =>
    let y := MathH.pow MathH.M_E (MathH.log it.2.cnt - it.2.r i * it.2.beta i)
    let a := it.2.c i / (y * MathH.pow MathH.M_E (it.2.r i))
    if a < best.1 then (a, it.1) else best) init

/-- The method `Histogram::create_sketch` (lines 116-134). Each iteration
dereferences `histogram_map.begin()`, which is undefined on an empty map:
the result is `none` there. -/
def create_sketch [MathH α] [LinearOrderedField α] (s : Histogram α K) :
    Option (Histogram α K) :=
  (List.finRange K).foldlM (fun st i =>
    match st.histogram_map with
    | [] => none
    | it :: _ =>
      let y := MathH.pow MathH.M_E (MathH.log it.2.cnt - it.2.r i * it.2.beta i)
      let a_i := it.2.c i / (y * MathH.pow MathH.M_E (it.2.r i))
      let s_i := it.1
      let best := create_sketch_scan i st.histogram_map (a_i, s_i)
      some { st with sketch := Function.update st.sketch i best.2,
                     hash := Function.update st.hash i (best.1 : WithTop α) }) s

/-- The method `Histogram::get_lock`: `histogram_map_lock.lock()`. The call
does not return while the mutex is held: the result is `none` there. -/
def get_lock (s : Histogram α K) : Option (Histogram α K) :=
  if s.histogram_map_lock then none else some { s with histogram_map_lock := true }

/-- The method `Histogram::release_lock`: `histogram_map_lock.unlock()`, which is
undefined on a mutex that is not held: the result is `none` there. -/
def release_lock (s : Histogram α K) : Option (Histogram α K) :=
  if s.histogram_map_lock then some { s with histogram_map_lock := false } else none

/-- The method `Histogram::record_sketch` (lines 166-172): the text written to
the file, and the state after the call. -/
def record_sketch (s : Histogram α K) : String × Histogram α K :=
  (forSlots K (fun i out => out ++ toString (s.sketch i) ++ " ") "" ++ "\n", s)

/-- One observation fed to the object: a call of `update` or of `insert_label`,
with the label and the values the generators return during the call. -/
inductive Obs (α : Type) (K : Nat) where
  | update (label : Nat) (g : Draws α K)
  | insert_label (label : Nat) (g : Draws α K)

/-- The label passed by a call. -/
def Obs.label : Obs α K → Nat
  | .update l _ => l
  | .insert_label l _ => l

/-- Whether the call is a call of `update`. -/
def Obs.isUpdate : Obs α K → Bool
  | .update _ _ => true
  | .insert_label _ _ => false

/-- The effect of one call of `update` or `insert_label`. -/
def Obs.step [MathH α] [LinearOrderedField α] (DECAY : Int) (LAMBDA : α)
    (s : Histogram α K) : Obs α K → Histogram α K
  | .update l g => Histogram.update DECAY LAMBDA s l g
  | .insert_label l g => Histogram.insert_label s l g

/-- The state after a sequence of `update` and `insert_label` calls. -/
def runObs [MathH α] [LinearOrderedField α] (DECAY : Int) (LAMBDA : α)
    (s : Histogram α K) (os : List (Obs α K)) : Histogram α K :=
  os.foldl (Obs.step DECAY LAMBDA) s

/-- The state after a sequence of `update` calls, each given by its label and
its draws. -/
def runUpdates [MathH α] [LinearOrderedField α] (DECAY : Int) (LAMBDA : α)
    (s : Histogram α K) (us : List (Nat × Draws α K)) : Histogram α K :=
  us.foldl (fun st u => Histogram.update DECAY LAMBDA st u.1 u.2) s

/-- A call of one of the three mutating methods. -/
inductive Call (α : Type) (K : Nat) where
  | obs (o : Obs α K)
  | create_sketch

/-- The effect of one call; `none` when `create_sketch` is undefined. -/
def Call.step [MathH α] [LinearOrderedField α] (DECAY : Int) (LAMBDA : α)
    (s : Histogram α K) : Call α K → Option (Histogram α K)
  | .obs o => some (o.step DECAY LAMBDA s)
  | .create_sketch => Histogram.create_sketch s

/-- The state after a sequence of calls. -/
def runCalls [MathH α] [LinearOrderedField α] (DECAY : Int) (LAMBDA : α)
    (s : Histogram α K) (cs : List (Call α K)) : Option (Histogram α K) :=
  cs.foldlM (Call.step DECAY LAMBDA) s

/-- Modelled from the spec: the state the constructor builds (the constructor
is in `include/histogram.hpp`, which is not among the sources). The store is
empty, `size` and `t` are 0, every `hash[i]` is `+infinity`, the mutex is free,
and `sketch` holds whatever the array held, `sketch0`. -/
def initial (sketch0 : Fin K → Nat) : Histogram α K :=
  { histogram_map := [], size := 0, t := 0, sketch := sketch0,
    hash := fun _ => ⊤, histogram_map_lock := false }

/-- Draws that return the same value `x` for every parameter of every slot. -/
def constDraws (x : α) : Draws α K :=
  { r := fun _ => x, beta := fun _ => x, c := fun _ => x }

/-- For each call of a sequence of `update` calls, whether the test of line 67
passes in that call, that is, whether its aging pass runs. -/
def agingFlags [MathH α] [LinearOrderedField α] (DECAY : Int) (LAMBDA : α)
    (s : Histogram α K) : List (Nat × Draws α K) → List Bool
  | [] => []
  | u :: us =>
    decide (decay_fires DECAY s)
      :: agingFlags DECAY LAMBDA (Histogram.update DECAY LAMBDA s u.1 u.2) us

/-- The count of a label as the specification words it: the number of calls that
passed the label, times the decay factor `f` to the number of aging passes
that ran after the entry was created (in the calls after the first one that
passed the label). `labels` are the labels of the calls, `flags` says which
calls ran an aging pass. -/
def claimedCount [LinearOrderedField α] (f : α) (label : Nat) (labels : List Nat)
    (flags : List Bool) : α :=
  (labels.count label : α) * f ^ ((flags.drop (labels.indexOf label + 1)).count true)

/-- The count of a label as a sum over its observations: every call that passed
the label contributes 1, multiplied by the decay factor `f` once for every
aging pass that ran in a later call. -/
def decayedCount [LinearOrderedField α] (f : α) (label : Nat) : List Nat → List Bool → α
  | l :: ls, _ :: bs =>
    (if l = label then f ^ (bs.count true) else 0) + decayedCount f label ls bs
  | _, _ => 0

/-- Every stored count is strictly positive. -/
def countsPositive [LinearOrderedField α] (s : Histogram α K) : Prop :=
  ∀ p ∈ s.histogram_map, 0 < p.2.cnt

/-- Every stored `c` parameter is strictly positive. -/
def csPositive [LinearOrderedField α] (s : Histogram α K) : Prop :=
  ∀ p ∈ s.histogram_map, ∀ i, 0 < p.2.c i

/-- Every `hash[i]` is at most the score of every entry for slot `i`. -/
def hashBelowScores [MathH α] [LinearOrderedField α] (s : Histogram α K) : Prop :=
  ∀ i, ∀ p ∈ s.histogram_map,
    s.hash i ≤ ((score p.2.cnt (p.2.r i) (p.2.beta i) (p.2.c i) : α) : WithTop α)

/-- Every `hash[i]` is the score of an entry stored under the label `sketch[i]`. -/
def hashAttained [MathH α] [LinearOrderedField α] (s : Histogram α K) : Prop :=
  ∀ i, ∃ p ∈ s.histogram_map, p.1 = s.sketch i ∧
    s.hash i = ((score p.2.cnt (p.2.r i) (p.2.beta i) (p.2.c i) : α) : WithTop α)

/-- Every `sketch[i]` is a key of a map that is not empty. -/
def sketchInKeys (s : Histogram α K) : Prop :=
  s.histogram_map ≠ [] ∧ ∀ i, s.sketch i ∈ s.histogram_map.map Prod.fst

/-- The state right after `create_sketch` on `exampleStore`: `sketch[0]` is
label 20 and `hash[0]` is its score, 1/5. -/
def exampleSketched [LinearOrderedField α] : Histogram α 1 :=
  { histogram_map :=
      [(10, { cnt := 2, r := fun _ => 1, beta := fun _ => 1, c := fun _ => 1 }),
       (20, { cnt := 5, r := fun _ => 1, beta := fun _ => 1, c := fun _ => 1 })],
    size := 2, t := 0, sketch := fun _ => 20, hash := fun _ => ((1 / 5 : α) : WithTop α),
    histogram_map_lock := false }

/-- A store with a tie at the least score: one slot, label 5 with count 2
(score 1/2) and labels 10 and 20 with count 5 (score 1/5 each), every parameter
equal to 1. -/
def tieStore [LinearOrderedField α] : Histogram α 1 :=
  { histogram_map :=
      [(5, { cnt := 2, r := fun _ => 1, beta := fun _ => 1, c := fun _ => 1 }),
       (10, { cnt := 5, r := fun _ => 1, beta := fun _ => 1, c := fun _ => 1 }),
       (20, { cnt := 5, r := fun _ => 1, beta := fun _ => 1, c := fun _ => 1 })],
    size := 3, t := 0, sketch := fun _ => 0, hash := fun _ => ⊤,
    histogram_map_lock := false }

/-- The state reached from the initial state by two calls `update(7)` with
`DECAY = 3` and all draws equal to 1: label 7 has count 2, `sketch[0]` is 7 and
`hash[0]` is its score, 1/2; the next call of `update` fires a decay. -/
def agedExample [LinearOrderedField α] : Histogram α 1 :=
  { histogram_map :=
      [(7, { cnt := 2, r := fun _ => 1, beta := fun _ => 1, c := fun _ => 1 })],
    size := 1, t := 2, sketch := fun _ => 7, hash := fun _ => ((1 / 2 : α) : WithTop α),
    histogram_map_lock := false }

/-- The store of the exact-recomputation example: one slot, label 10 with
count 2 and label 20 with count 5, every parameter equal to 1. -/
def exampleStore [LinearOrderedField α] : Histogram α 1 :=
  { histogram_map :=
      [(10, { cnt := 2, r := fun _ => 1, beta := fun _ => 1, c := fun _ => 1 }),
       (20, { cnt := 5, r := fun _ => 1, beta := fun _ => 1, c := fun _ => 1 })],
    size := 2, t := 0, sketch := fun _ => 0, hash := fun _ => ⊤,
    histogram_map_lock := false }

/-! ## The store -/

section Store

variable {V : Type}

theorem map_find_eq_none_iff (k : Nat) (m : List (Nat × V)) :
    map_find k m = none ↔ k ∉ m.map Prod.fst := by
  induction m with
  | nil => simp [map_find]
  | cons p m ih =>
    by_cases h : p.1 = k
    · simp [map_find, h]
    · simp [map_find, h, ih, Ne.symm h]

theorem map_find_place_self (k : Nat) (v : V) (m : List (Nat × V))
    (h : map_find k m = none) : map_find k (map_place k v m) = some v := by
  induction m with
  | nil => simp [map_place, map_find]
  | cons p m ih =>
    by_cases hp : p.1 = k
    · simp [map_find, hp] at h
    · simp only [map_find, hp, if_false] at h
      by_cases hlt : k < p.1
      · simp [map_place, hlt, map_find]
      · simp [map_place, hlt, map_find, hp, ih h]

theorem map_find_place_other (k k' : Nat) (v : V) (m : List (Nat × V)) (hk : k' ≠ k) :
    map_find k' (map_place k v m) = map_find k' m := by
  induction m with
  | nil => simp [map_place, map_find, Ne.symm hk]
  | cons p m ih =>
    by_cases hlt : k < p.1
    · simp [map_place, hlt, map_find, Ne.symm hk]
    · simp [map_place, hlt, map_find, ih]

theorem map_find_set_self (k : Nat) (v : V) (m : List (Nat × V)) (e : V)
    (h : map_find k m = some e) : map_find k (map_set k v m) = some v := by
  induction m with
  | nil => simp [map_find] at h
  | cons p m ih =>
    by_cases hp : p.1 = k
    · simp [map_set, map_find, hp]
    · simp only [map_find, hp, if_false] at h
      simp [map_set, map_find, hp, ih h]

theorem map_find_set_other (k k' : Nat) (v : V) (m : List (Nat × V)) (hk : k' ≠ k) :
    map_find k' (map_set k v m) = map_find k' m := by
  induction m with
  | nil => simp [map_set]
  | cons p m ih =>
    by_cases hp : p.1 = k
    · simp [map_set, map_find, hp, Ne.symm hk]
    · simp [map_set, map_find, hp, ih]

theorem map_set_keys (k : Nat) (v : V) (m : List (Nat × V)) :
    (map_set k v m).map Prod.fst = m.map Prod.fst := by
  induction m with
  | nil => simp [map_set]
  | cons p m ih =>
    by_cases hp : p.1 = k
    · simp [map_set, hp]
    · simp [map_set, hp, ih]

theorem map_place_keys (k : Nat) (v : V) (m : List (Nat × V)) :
    ((map_place k v m).map Prod.fst).Perm (k :: m.map Prod.fst) := by
  induction m with
  | nil => simp [map_place]
  | cons p m ih =>
    by_cases hlt : k < p.1
    · simp [map_place, hlt]
    · simp only [map_place, hlt, if_false, List.map_cons]
      exact (List.Perm.cons p.1 ih).trans (List.Perm.swap _ _ _)

theorem map_place_length (k : Nat) (v : V) (m : List (Nat × V)) :
    (map_place k v m).length = m.length + 1 := by
  have h := (map_place_keys k v m).length_eq
  simpa using h

theorem map_set_length (k : Nat) (v : V) (m : List (Nat × V)) :
    (map_set k v m).length = m.length := by
  have h := congrArg List.length (map_set_keys k v m)
  simpa using h

theorem map_place_sorted (k : Nat) (v : V) (m : List (Nat × V))
    (hs : (m.map Prod.fst).Sorted (· < ·)) (hk : k ∉ m.map Prod.fst) :
    ((map_place k v m).map Prod.fst).Sorted (· < ·) := by
  induction m with
  | nil => simp [map_place]
  | cons p m ih =>
    simp only [List.map_cons, List.sorted_cons] at hs
    simp only [List.map_cons, List.mem_cons, not_or] at hk
    by_cases hlt : k < p.1
    · simp only [map_place, hlt, if_true, List.map_cons, List.sorted_cons]
      refine ⟨?_, hs.1, hs.2⟩
      intro b hb
      rcases List.mem_cons.mp hb with rfl | hb
      · exact hlt
      · exact lt_trans hlt (hs.1 b hb)
    · simp only [map_place, hlt, if_false, List.map_cons, List.sorted_cons]
      refine ⟨?_, ih hs.2 hk.2⟩
      intro b hb
      rcases List.mem_cons.mp ((map_place_keys k v m).mem_iff.mp hb) with rfl | hb
      · exact lt_of_le_of_ne (not_lt.mp hlt) (Ne.symm hk.1)
      · exact hs.1 b hb

end Store

/-! ## The loops over the slots -/

section Loops

/-- A loop whose body rewrites `hash[i]` from its own old value touches
nothing else, and every slot is rewritten once. -/
theorem foldl_hash_map (F : Fin K → WithTop α → WithTop α) (l : List (Fin K))
    (hl : l.Nodup) (s : Histogram α K) :
    (l.foldl (fun st i =>
        { st with hash := Function.update st.hash i (F i (st.hash i)) }) s).histogram_map
      = s.histogram_map ∧
    (l.foldl (fun st i =>
        { st with hash := Function.update st.hash i (F i (st.hash i)) }) s).size = s.size ∧
    (l.foldl (fun st i =>
        { st with hash := Function.update st.hash i (F i (st.hash i)) }) s).t = s.t ∧
    (l.foldl (fun st i =>
        { st with hash := Function.update st.hash i (F i (st.hash i)) }) s).sketch
      = s.sketch ∧
    (l.foldl (fun st i =>
        { st with hash := Function.update st.hash i (F i (st.hash i)) }) s).histogram_map_lock
      = s.histogram_map_lock ∧
    ∀ j, (l.foldl (fun st i =>
        { st with hash := Function.update st.hash i (F i (st.hash i)) }) s).hash j
      = if j ∈ l then F j (s.hash j) else s.hash j := by
  induction l generalizing s with
  | nil => simp
  | cons i l ih =>
    have hi : i ∉ l := (List.nodup_cons.mp hl).1
    obtain ⟨h1, h2, h3, h4, h5, h6⟩ :=
      ih (List.nodup_cons.mp hl).2
        { s with hash := Function.update s.hash i (F i (s.hash i)) }
    simp only [List.foldl_cons]
    refine ⟨h1, h2, h3, h4, h5, ?_⟩
    intro j
    rw [h6 j]
    by_cases hj : j = i
    · subst hj
      simp [hi]
    · simp [hj, Function.update_noteq hj]

/-- The hash loop of `update` for per-slot values `a`: each slot keeps the
smaller of its old hash and `a`, and takes the label only on a strict
improvement; no other field changes. -/
theorem foldl_hash_min [LinearOrder α] (a : Fin K → α) (label : Nat) (l : List (Fin K))
    (hl : l.Nodup) (s : Histogram α K) :
    (l.foldl (fun st i =>
        if (a i : WithTop α) < st.hash i then
          { st with hash := Function.update st.hash i (a i : WithTop α),
                    sketch := Function.update st.sketch i label }
        else st) s).histogram_map = s.histogram_map ∧
    (l.foldl (fun st i =>
        if (a i : WithTop α) < st.hash i then
          { st with hash := Function.update st.hash i (a i : WithTop α),
                    sketch := Function.update st.sketch i label }
        else st) s).size = s.size ∧
    (l.foldl (fun st i =>
        if (a i : WithTop α) < st.hash i then
          { st with hash := Function.update st.hash i (a i : WithTop α),
                    sketch := Function.update st.sketch i label }
        else st) s).t = s.t ∧
    (l.foldl (fun st i =>
        if (a i : WithTop α) < st.hash i then
          { st with hash := Function.update st.hash i (a i : WithTop α),
                    sketch := Function.update st.sketch i label }
        else st) s).histogram_map_lock = s.histogram_map_lock ∧
    (∀ j, (l.foldl (fun st i =>
        if (a i : WithTop α) < st.hash i then
          { st with hash := Function.update st.hash i (a i : WithTop α),
                    sketch := Function.update st.sketch i label }
        else st) s).hash j = if j ∈ l then min (s.hash j) (a j : WithTop α) else s.hash j) ∧
    ∀ j, (l.foldl (fun st i =>
        if (a i : WithTop α) < st.hash i then
          { st with hash := Function.update st.hash i (a i : WithTop α),
                    sketch := Function.update st.sketch i label }
        else st) s).sketch j
      = if j ∈ l ∧ (a j : WithTop α) < s.hash j then label else s.sketch j := by
  induction l generalizing s with
  | nil => simp
  | cons i l ih =>
    have hi : i ∉ l := (List.nodup_cons.mp hl).1
    simp only [List.foldl_cons]
    by_cases hlt : (a i : WithTop α) < s.hash i
    · obtain ⟨h1, h2, h3, h4, h5, h6⟩ :=
        ih (List.nodup_cons.mp hl).2
          { s with hash := Function.update s.hash i (a i : WithTop α),
                   sketch := Function.update s.sketch i label }
      simp only [hlt, if_true]
      refine ⟨h1, h2, h3, h4, ?_, ?_⟩
      · intro j
        rw [h5 j]
        by_cases hj : j = i
        · subst hj
          simp [hi, min_eq_right (le_of_lt hlt)]
        · simp [hj, Function.update_noteq hj]
      · intro j
        rw [h6 j]
        by_cases hj : j = i
        · subst hj
          simp [hi, hlt]
        · simp [hj, Function.update_noteq hj]
    · obtain ⟨h1, h2, h3, h4, h5, h6⟩ := ih (List.nodup_cons.mp hl).2 s
      simp only [hlt, if_false]
      refine ⟨h1, h2, h3, h4, ?_, ?_⟩
      · intro j
        rw [h5 j]
        by_cases hj : j = i
        · subst hj
          simp [hi, min_eq_left (not_lt.mp hlt)]
        · simp [hj]
      · intro j
        rw [h6 j]
        by_cases hj : j = i
        · subst hj
          simp [hi, hlt]
        · simp [hj]

end Loops

/-! ## The three parts of `update` -/

section Parts

variable [MathH α] [LinearOrderedField α]

theorem aging_pass_fields (LAMBDA : α) (s : Histogram α K) :
    (aging_pass LAMBDA s).histogram_map
      = s.histogram_map.map (fun it =>
          (it.1, { it.2 with cnt := it.2.cnt * MathH.pow MathH.M_E (-LAMBDA) })) ∧
    (aging_pass LAMBDA s).size = s.size ∧
    (aging_pass LAMBDA s).t = 0 ∧
    (aging_pass LAMBDA s).sketch = s.sketch ∧
    (aging_pass LAMBDA s).histogram_map_lock = s.histogram_map_lock ∧
    ∀ i, (aging_pass LAMBDA s).hash i
      = (s.hash i).map (fun x => x * MathH.pow MathH.M_E (-LAMBDA)) := by
  obtain ⟨h1, h2, _, h4, h5, h6⟩ :=
    foldl_hash_map (fun _ h => h.map fun x => x * MathH.pow MathH.M_E (-LAMBDA))
      (List.finRange K) (List.nodup_finRange K)
      { s with histogram_map := s.histogram_map.map (fun it =>
          (it.1, { it.2 with cnt := it.2.cnt * MathH.pow MathH.M_E (-LAMBDA) })) }
  refine ⟨h1, h2, rfl, h4, h5, ?_⟩
  intro i
  have := h6 i
  simpa [List.mem_finRange] using this

theorem update_hash_fields (s : Histogram α K) (label : Nat) (e : hist_elem α K) :
    (update_hash s label e).histogram_map = s.histogram_map ∧
    (update_hash s label e).size = s.size ∧
    (update_hash s label e).t = s.t ∧
    (update_hash s label e).histogram_map_lock = s.histogram_map_lock ∧
    (∀ i, (update_hash s label e).hash i
      = min (s.hash i) ((score e.cnt (e.r i) (e.beta i) (e.c i) : α) : WithTop α)) ∧
    ∀ i, (update_hash s label e).sketch i
      = if ((score e.cnt (e.r i) (e.beta i) (e.c i) : α) : WithTop α) < s.hash i then label
        else s.sketch i := by
  obtain ⟨h1, h2, h3, h4, h5, h6⟩ :=
    foldl_hash_min (fun i => score e.cnt (e.r i) (e.beta i) (e.c i)) label
      (List.finRange K) (List.nodup_finRange K) s
  refine ⟨h1, h2, h3, h4, ?_, ?_⟩
  · intro i
    have := h5 i
    simpa [List.mem_finRange] using this
  · intro i
    have := h6 i
    simpa [List.mem_finRange] using this

end Parts

section Insert

variable [One α] [Add α]

/-- The insertion step when the label is new. -/
theorem update_insert_absent (s : Histogram α K) (label : Nat) (g : Draws α K)
    (h : map_find label s.histogram_map = none) :
    update_insert s label g
      = ({ s with histogram_map := map_place label (new_elem g) s.histogram_map,
                  size := s.size + 1 }, new_elem g) := by
  simp [update_insert, map_insert, h]

/-- The insertion step when the label is already stored. -/
theorem update_insert_present (s : Histogram α K) (label : Nat) (g : Draws α K)
    (e : hist_elem α K) (h : map_find label s.histogram_map = some e) :
    update_insert s label g
      = ({ s with histogram_map :=
             map_set label { e with cnt := e.cnt + 1 } s.histogram_map },
         { e with cnt := e.cnt + 1 }) := by
  simp [update_insert, map_insert, h]

theorem insert_label_eq (s : Histogram α K) (label : Nat) (g : Draws α K) :
    insert_label s label g = (update_insert s label g).1 := by
  unfold insert_label update_insert
  dsimp only
  split_ifs <;> rfl

/-- After the insertion step the returned element is the one stored under
the label, and the other fields of the state are as before. -/
theorem update_insert_fields (s : Histogram α K) (label : Nat) (g : Draws α K) :
    map_find label (update_insert s label g).1.histogram_map
      = some (update_insert s label g).2 ∧
    (∀ k, k ≠ label → map_find k (update_insert s label g).1.histogram_map
      = map_find k s.histogram_map) ∧
    (update_insert s label g).1.t = s.t ∧
    (update_insert s label g).1.sketch = s.sketch ∧
    (update_insert s label g).1.hash = s.hash ∧
    (update_insert s label g).1.histogram_map_lock = s.histogram_map_lock := by
  cases h : map_find label s.histogram_map with
  | none =>
    rw [update_insert_absent s label g h]
    exact ⟨map_find_place_self _ _ _ h, fun k hk => map_find_place_other _ _ _ _ hk,
      rfl, rfl, rfl, rfl⟩
  | some e =>
    rw [update_insert_present s label g e h]
    exact ⟨map_find_set_self _ _ _ e h, fun k hk => map_find_set_other _ _ _ _ hk,
      rfl, rfl, rfl, rfl⟩

theorem insert_label_frame (s : Histogram α K) (label : Nat) (g : Draws α K) :
    (insert_label s label g).t = s.t ∧ (insert_label s label g).hash = s.hash ∧
    (insert_label s label g).sketch = s.sketch ∧
    (insert_label s label g).histogram_map_lock = s.histogram_map_lock := by
  rw [insert_label_eq]
  obtain ⟨_, _, h3, h4, h5, h6⟩ := update_insert_fields s label g
  exact ⟨h3, h5, h4, h6⟩

end Insert

section Decay

variable [MathH α] [LinearOrderedField α]

theorem map_find_map {V W : Type} (f : V → W) (k : Nat) (m : List (Nat × V)) :
    map_find k (m.map fun it => (it.1, f it.2)) = (map_find k m).map f := by
  induction m with
  | nil => rfl
  | cons p m ih =>
    by_cases hp : p.1 = k
    · simp [map_find, hp]
    · simp [map_find, hp, ih]

theorem update_decay_of_fires (DECAY : Int) (LAMBDA : α) (s : Histogram α K)
    (h : decay_fires DECAY s) :
    update_decay DECAY LAMBDA s = aging_pass LAMBDA { s with t := s.t + 1 } := by
  unfold decay_fires at h
  simp [update_decay, h]

theorem update_decay_of_not_fires (DECAY : Int) (LAMBDA : α) (s : Histogram α K)
    (h : ¬ decay_fires DECAY s) :
    update_decay DECAY LAMBDA s = { s with t := s.t + 1 } := by
  unfold decay_fires at h
  simp only [update_decay]
  rw [if_neg h]

/-- The decay step never touches `size`, `sketch`, the lock, the keys or the
parameter arrays. -/
theorem update_decay_frame (DECAY : Int) (LAMBDA : α) (s : Histogram α K) :
    (update_decay DECAY LAMBDA s).size = s.size ∧
    (update_decay DECAY LAMBDA s).sketch = s.sketch ∧
    (update_decay DECAY LAMBDA s).histogram_map_lock = s.histogram_map_lock ∧
    (update_decay DECAY LAMBDA s).histogram_map.map Prod.fst
      = s.histogram_map.map Prod.fst ∧
    ∀ k, map_find k (update_decay DECAY LAMBDA s).histogram_map
      = (map_find k s.histogram_map).map (fun e =>
          { e with cnt := if decay_fires DECAY s then
              e.cnt * MathH.pow MathH.M_E (-LAMBDA) else e.cnt }) := by
  by_cases h : decay_fires DECAY s
  · rw [update_decay_of_fires DECAY LAMBDA s h]
    obtain ⟨h1, h2, _, h4, h5, _⟩ := aging_pass_fields LAMBDA { s with t := s.t + 1 }
    refine ⟨h2, h4, h5, ?_, ?_⟩
    · rw [h1]
      simp [List.map_map, Function.comp_def]
    · intro k
      rw [h1]
      simp only [h, if_true]
      exact map_find_map
        (fun e : hist_elem α K => { e with cnt := e.cnt * MathH.pow MathH.M_E (-LAMBDA) })
        k s.histogram_map
  · rw [update_decay_of_not_fires DECAY LAMBDA s h]
    refine ⟨rfl, rfl, rfl, rfl, ?_⟩
    intro k
    simp only [h, if_false]
    cases map_find k s.histogram_map <;> rfl

end Decay

/-! ## `update` as a whole -/

section Whole

variable [MathH α] [LinearOrderedField α]

/-- The element of the label after the insertion step of `update`. -/
theorem update_find_label (DECAY : Int) (LAMBDA : α) (s : Histogram α K) (label : Nat)
    (g : Draws α K) :
    map_find label (update DECAY LAMBDA s label g).histogram_map
      = some (update_insert (update_decay DECAY LAMBDA s) label g).2 := by
  show map_find label (update_hash _ label _).histogram_map = _
  rw [(update_hash_fields _ label _).1]
  exact (update_insert_fields _ label g).1

theorem update_find_absent (DECAY : Int) (LAMBDA : α) (s : Histogram α K) (label : Nat)
    (g : Draws α K) (h : map_find label s.histogram_map = none) :
    map_find label (update DECAY LAMBDA s label g).histogram_map
      = some { cnt := 1, r := g.r, beta := g.beta, c := g.c } := by
  have h1 : map_find label (update_decay DECAY LAMBDA s).histogram_map = none := by
    rw [(update_decay_frame DECAY LAMBDA s).2.2.2.2 label, h]
    rfl
  rw [update_find_label, update_insert_absent _ label g h1]
  rfl

theorem update_find_present (DECAY : Int) (LAMBDA : α) (s : Histogram α K) (label : Nat)
    (g : Draws α K) (e : hist_elem α K) (h : map_find label s.histogram_map = some e) :
    map_find label (update DECAY LAMBDA s label g).histogram_map
      = some { cnt := (if decay_fires DECAY s then e.cnt * MathH.pow MathH.M_E (-LAMBDA)
                        else e.cnt) + 1,
               r := e.r, beta := e.beta, c := e.c } := by
  have h1 := (update_decay_frame DECAY LAMBDA s).2.2.2.2 label
  rw [h] at h1
  rw [update_find_label, update_insert_present _ label g _ h1]

theorem update_find_other (DECAY : Int) (LAMBDA : α) (s : Histogram α K) (label : Nat)
    (g : Draws α K) (k : Nat) (hk : k ≠ label) :
    map_find k (update DECAY LAMBDA s label g).histogram_map
      = (map_find k s.histogram_map).map (fun e =>
          { e with cnt := if decay_fires DECAY s then
              e.cnt * MathH.pow MathH.M_E (-LAMBDA) else e.cnt }) := by
  show map_find k (update_hash _ label _).histogram_map = _
  rw [(update_hash_fields _ label _).1, (update_insert_fields _ label g).2.1 k hk]
  exact (update_decay_frame DECAY LAMBDA s).2.2.2.2 k

theorem update_t (DECAY : Int) (LAMBDA : α) (s : Histogram α K) (label : Nat)
    (g : Draws α K) :
    (update DECAY LAMBDA s label g).t = if decay_fires DECAY s then 0 else s.t + 1 := by
  show (update_hash _ label _).t = _
  rw [(update_hash_fields _ label _).2.2.1, (update_insert_fields _ label g).2.2.1]
  by_cases h : decay_fires DECAY s
  · rw [update_decay_of_fires DECAY LAMBDA s h, if_pos h]
    exact (aging_pass_fields LAMBDA _).2.2.1
  · rw [update_decay_of_not_fires DECAY LAMBDA s h, if_neg h]

theorem update_hash_at (DECAY : Int) (LAMBDA : α) (s : Histogram α K) (label : Nat)
    (g : Draws α K) (e : hist_elem α K)
    (he : map_find label (update DECAY LAMBDA s label g).histogram_map = some e)
    (i : Fin K) :
    (update DECAY LAMBDA s label g).hash i
      = min ((update_decay DECAY LAMBDA s).hash i)
          ((score e.cnt (e.r i) (e.beta i) (e.c i) : α) : WithTop α) ∧
    (update DECAY LAMBDA s label g).sketch i
      = if ((score e.cnt (e.r i) (e.beta i) (e.c i) : α) : WithTop α)
            < (update_decay DECAY LAMBDA s).hash i
        then label else s.sketch i := by
  rw [update_find_label] at he
  have he' := Option.some.inj he
  subst he'
  obtain ⟨_, _, _, i4, i5, _⟩ :=
    update_insert_fields (update_decay DECAY LAMBDA s) label g
  obtain ⟨_, _, _, _, f5, f6⟩ :=
    update_hash_fields (update_insert (update_decay DECAY LAMBDA s) label g).1 label
      (update_insert (update_decay DECAY LAMBDA s) label g).2
  constructor
  · show (update_hash _ label _).hash i = _
    rw [f5 i, i5]
  · show (update_hash _ label _).sketch i = _
    rw [f6 i, i5, i4, (update_decay_frame DECAY LAMBDA s).2.1]

theorem update_decay_hash (DECAY : Int) (LAMBDA : α) (s : Histogram α K) (i : Fin K) :
    (update_decay DECAY LAMBDA s).hash i
      = if decay_fires DECAY s then
          (s.hash i).map (fun x => x * MathH.pow MathH.M_E (-LAMBDA))
        else s.hash i := by
  by_cases h : decay_fires DECAY s
  · rw [update_decay_of_fires DECAY LAMBDA s h, if_pos h]
    exact (aging_pass_fields LAMBDA _).2.2.2.2.2 i
  · rw [update_decay_of_not_fires DECAY LAMBDA s h, if_neg h]

end Whole

/-! ## Keys and size -/

section Keys

theorem update_insert_store [One α] [Add α] (s : Histogram α K) (label : Nat)
    (g : Draws α K) :
    (label ∈ s.histogram_map.map Prod.fst →
      (update_insert s label g).1.histogram_map.map Prod.fst = s.histogram_map.map Prod.fst ∧
      (update_insert s label g).1.size = s.size) ∧
    (label ∉ s.histogram_map.map Prod.fst →
      ((update_insert s label g).1.histogram_map.map Prod.fst).Perm
        (label :: s.histogram_map.map Prod.fst) ∧
      ((s.histogram_map.map Prod.fst).Sorted (· < ·) →
        ((update_insert s label g).1.histogram_map.map Prod.fst).Sorted (· < ·)) ∧
      (update_insert s label g).1.size = s.size + 1) := by
  constructor
  · intro hin
    cases hf : map_find label s.histogram_map with
    | none => exact absurd hin ((map_find_eq_none_iff _ _).mp hf)
    | some e =>
      rw [update_insert_present s label g e hf]
      exact ⟨map_set_keys _ _ _, rfl⟩
  · intro hnot
    have hf := (map_find_eq_none_iff _ _).mpr hnot
    rw [update_insert_absent s label g hf]
    exact ⟨map_place_keys _ _ _, fun hs => map_place_sorted _ _ _ hs hnot, rfl⟩

/-- One call of `update` or `insert_label` keeps the keys in ascending order,
adds the label to the keys, and keeps `size` equal to the number of entries. -/
theorem step_store [MathH α] [LinearOrderedField α] (DECAY : Int) (LAMBDA : α)
    (s : Histogram α K) (o : Obs α K)
    (hs : (s.histogram_map.map Prod.fst).Sorted (· < ·))
    (hsz : s.size = (s.histogram_map.length : Int)) :
    ((o.step DECAY LAMBDA s).histogram_map.map Prod.fst).Sorted (· < ·) ∧
    (o.step DECAY LAMBDA s).size = ((o.step DECAY LAMBDA s).histogram_map.length : Int) ∧
    (∀ k, k ∈ (o.step DECAY LAMBDA s).histogram_map.map Prod.fst ↔
      k = o.label ∨ k ∈ s.histogram_map.map Prod.fst) ∧
    s.size ≤ (o.step DECAY LAMBDA s).size := by
  -- both calls are an insertion step on a state with the keys and size of `s`
  have key : ∀ s1 : Histogram α K,
      s1.histogram_map.map Prod.fst = s.histogram_map.map Prod.fst → s1.size = s.size →
      ∀ l g, ((update_insert s1 l g).1.histogram_map.map Prod.fst).Sorted (· < ·) ∧
        (update_insert s1 l g).1.size = ((update_insert s1 l g).1.histogram_map.length : Int) ∧
        (∀ k, k ∈ (update_insert s1 l g).1.histogram_map.map Prod.fst ↔
          k = l ∨ k ∈ s.histogram_map.map Prod.fst) ∧
        s.size ≤ (update_insert s1 l g).1.size := by
    intro s1 hk hz l g
    have hlen : s1.histogram_map.length = s.histogram_map.length := by
      have := congrArg List.length hk
      simpa using this
    obtain ⟨hin, hout⟩ := update_insert_store s1 l g
    by_cases hl : l ∈ s1.histogram_map.map Prod.fst
    · obtain ⟨h1, h2⟩ := hin hl
      have hlen' : (update_insert s1 l g).1.histogram_map.length = s.histogram_map.length := by
        have := congrArg List.length h1
        rw [List.length_map, List.length_map] at this
        rw [this, hlen]
      refine ⟨by rw [h1, hk]; exact hs, by rw [h2, hz, hsz, hlen'], ?_, by rw [h2, hz]⟩
      intro k
      rw [h1, hk]
      constructor
      · exact fun h => Or.inr h
      · rintro (rfl | h)
        · rw [← hk]; exact hl
        · exact h
    · obtain ⟨h1, h2, h3⟩ := hout hl
      have hlen' : (update_insert s1 l g).1.histogram_map.length
          = s.histogram_map.length + 1 := by
        have := h1.length_eq
        rw [List.length_map, List.length_cons, List.length_map] at this
        rw [this, hlen]
      refine ⟨h2 (by rw [hk]; exact hs), ?_, ?_, by rw [h3, hz]; omega⟩
      · rw [h3, hz, hsz, hlen']
        push_cast
        ring
      · intro k
        rw [h1.mem_iff, List.mem_cons, hk]
  cases o with
  | update l g =>
    obtain ⟨d1, _, _, d4, _⟩ := update_decay_frame DECAY LAMBDA s
    have h := key (update_decay DECAY LAMBDA s) d4 d1 l g
    have hm : (update DECAY LAMBDA s l g).histogram_map
        = (update_insert (update_decay DECAY LAMBDA s) l g).1.histogram_map :=
      (update_hash_fields _ l _).1
    have hz : (update DECAY LAMBDA s l g).size
        = (update_insert (update_decay DECAY LAMBDA s) l g).1.size :=
      (update_hash_fields _ l _).2.1
    show ((update DECAY LAMBDA s l g).histogram_map.map Prod.fst).Sorted (· < ·) ∧
      (update DECAY LAMBDA s l g).size = ((update DECAY LAMBDA s l g).histogram_map.length : Int) ∧
      (∀ k, k ∈ (update DECAY LAMBDA s l g).histogram_map.map Prod.fst ↔
        k = l ∨ k ∈ s.histogram_map.map Prod.fst) ∧
      s.size ≤ (update DECAY LAMBDA s l g).size
    rw [hm, hz]
    exact h
  | insert_label l g =>
    have h := key s rfl rfl l g
    show ((insert_label s l g).histogram_map.map Prod.fst).Sorted (· < ·) ∧
      (insert_label s l g).size = ((insert_label s l g).histogram_map.length : Int) ∧
      (∀ k, k ∈ (insert_label s l g).histogram_map.map Prod.fst ↔
        k = l ∨ k ∈ s.histogram_map.map Prod.fst) ∧
      s.size ≤ (insert_label s l g).size
    rw [insert_label_eq]
    exact h

/-- The store invariant along a sequence of calls. -/
theorem runObs_store [MathH α] [LinearOrderedField α] (DECAY : Int) (LAMBDA : α)
    (os : List (Obs α K)) (s : Histogram α K)
    (hs : (s.histogram_map.map Prod.fst).Sorted (· < ·))
    (hsz : s.size = (s.histogram_map.length : Int)) :
    ((runObs DECAY LAMBDA s os).histogram_map.map Prod.fst).Sorted (· < ·) ∧
    (runObs DECAY LAMBDA s os).size = ((runObs DECAY LAMBDA s os).histogram_map.length : Int) ∧
    (∀ k, k ∈ (runObs DECAY LAMBDA s os).histogram_map.map Prod.fst ↔
      k ∈ s.histogram_map.map Prod.fst ∨ k ∈ os.map Obs.label) ∧
    s.size ≤ (runObs DECAY LAMBDA s os).size := by
  induction os generalizing s with
  | nil => exact ⟨hs, hsz, fun k => by simp [runObs], le_refl _⟩
  | cons o os ih =>
    obtain ⟨h1, h2, h3, h4⟩ := step_store DECAY LAMBDA s o hs hsz
    obtain ⟨i1, i2, i3, i4⟩ := ih (o.step DECAY LAMBDA s) h1 h2
    refine ⟨i1, i2, ?_, le_trans h4 i4⟩
    intro k
    show k ∈ (runObs DECAY LAMBDA (o.step DECAY LAMBDA s) os).histogram_map.map Prod.fst ↔ _
    rw [i3 k, h3 k, List.map_cons, List.mem_cons]
    tauto

end Keys

/-! ## Sequences of calls -/

section Runs

theorem tick_mod (D : Int) (hD : 1 ≤ D) (n : Nat) :
    (if (n : Int) % D + 1 ≥ D then 0 else (n : Int) % D + 1) = ((n + 1 : Nat) : Int) % D ∧
    ((n : Int) % D + 1 ≥ D ↔ D ∣ ((n + 1 : Nat) : Int)) := by
  have hpos : 0 < D := by omega
  have hr0 : 0 ≤ (n : Int) % D := Int.emod_nonneg _ (by omega)
  have hr1 : (n : Int) % D < D := Int.emod_lt_of_pos _ hpos
  have hn : ((n + 1 : Nat) : Int) = D * ((n : Int) / D) + ((n : Int) % D + 1) := by
    have := Int.emod_add_ediv (n : Int) D
    push_cast
    omega
  have hmod : ((n + 1 : Nat) : Int) % D = ((n : Int) % D + 1) % D := by
    rw [hn, add_comm, Int.add_mul_emod_self_left]
  by_cases h : (n : Int) % D + 1 ≥ D
  · have he : (n : Int) % D + 1 = D := by omega
    have hz : ((n + 1 : Nat) : Int) % D = 0 := by rw [hmod, he, Int.emod_self]
    refine ⟨by rw [if_pos h, hz], ?_⟩
    constructor
    · intro _
      exact Int.dvd_of_emod_eq_zero hz
    · intro _
      exact h
  · have hlt : (n : Int) % D + 1 < D := by omega
    have hz : ((n + 1 : Nat) : Int) % D = (n : Int) % D + 1 := by
      rw [hmod, Int.emod_eq_of_lt (by omega) hlt]
    refine ⟨by rw [if_neg h, hz], ?_⟩
    constructor
    · intro h'
      exact absurd h' h
    · intro hd
      have := Int.emod_eq_zero_of_dvd hd
      omega

variable [MathH α] [LinearOrderedField α]

theorem runObs_snoc (DECAY : Int) (LAMBDA : α) (s : Histogram α K) (os : List (Obs α K))
    (o : Obs α K) :
    runObs DECAY LAMBDA s (os ++ [o]) = o.step DECAY LAMBDA (runObs DECAY LAMBDA s os) := by
  simp [runObs, List.foldl_append]

theorem runObs_cons (DECAY : Int) (LAMBDA : α) (s : Histogram α K) (os : List (Obs α K))
    (o : Obs α K) :
    runObs DECAY LAMBDA s (o :: os) = runObs DECAY LAMBDA (o.step DECAY LAMBDA s) os := rfl

/-- From `t = 0` and with `DECAY >= 1`, the counter after a sequence of calls
is the number of `update` calls modulo `DECAY`. -/
theorem runObs_t (DECAY : Int) (hD : 1 ≤ DECAY) (LAMBDA : α) (s0 : Histogram α K)
    (h0 : s0.t = 0) (os : List (Obs α K)) :
    (runObs DECAY LAMBDA s0 os).t = (((os.filter Obs.isUpdate).length : Nat) : Int) % DECAY := by
  induction os using List.reverseRecOn with
  | nil =>
    simp [runObs, h0]
  | append_singleton os o ih =>
    rw [runObs_snoc]
    cases o with
    | update l g =>
      have hlen : ((os ++ [Obs.update l g]).filter Obs.isUpdate).length
          = (os.filter Obs.isUpdate).length + 1 := by
        simp [List.filter_append, Obs.isUpdate]
      rw [hlen]
      show (update DECAY LAMBDA _ l g).t = _
      rw [update_t, ← (tick_mod DECAY hD _).1]
      unfold decay_fires
      simp only [ih]
    | insert_label l g =>
      have hlen : ((os ++ [Obs.insert_label l g]).filter Obs.isUpdate).length
          = (os.filter Obs.isUpdate).length := by
        simp [List.filter_append, Obs.isUpdate]
      rw [hlen, ← ih]
      exact (insert_label_frame _ l g).1

theorem runUpdates_cons (DECAY : Int) (LAMBDA : α) (s : Histogram α K)
    (u : Nat × Draws α K) (us : List (Nat × Draws α K)) :
    runUpdates DECAY LAMBDA s (u :: us)
      = runUpdates DECAY LAMBDA (update DECAY LAMBDA s u.1 u.2) us := rfl

/-- The count of a stored label after a sequence of `update` calls: the old
count decayed by every aging pass, plus the decayed observations. -/
theorem runUpdates_count_present (DECAY : Int) (LAMBDA : α) (label : Nat)
    (us : List (Nat × Draws α K)) (s : Histogram α K) (e : hist_elem α K)
    (h : map_find label s.histogram_map = some e) :
    ∃ e', map_find label (runUpdates DECAY LAMBDA s us).histogram_map = some e' ∧
      e'.cnt = e.cnt * MathH.pow MathH.M_E (-LAMBDA)
          ^ ((agingFlags DECAY LAMBDA s us).count true)
        + decayedCount (MathH.pow MathH.M_E (-LAMBDA)) label (us.map Prod.fst)
            (agingFlags DECAY LAMBDA s us) := by
  induction us generalizing s e with
  | nil => exact ⟨e, h, by simp [agingFlags, decayedCount]⟩
  | cons u us ih =>
    obtain ⟨l, g⟩ := u
    rw [runUpdates_cons]
    by_cases hl : l = label
    · subst hl
      obtain ⟨e', i1, i2⟩ := ih (update DECAY LAMBDA s l g) _
        (update_find_present DECAY LAMBDA s l g e h)
      refine ⟨e', i1, ?_⟩
      rw [i2]
      by_cases hf : decay_fires DECAY s
      · simp only [agingFlags, hf, decide_True, List.count_cons_self, List.map_cons,
          decayedCount, if_true, pow_succ]
        ring
      · simp only [agingFlags, hf, decide_False, List.map_cons, decayedCount, if_true,
          if_false, List.count_cons_of_ne (by decide : true ≠ false)]
        ring
    · have h1 := update_find_other DECAY LAMBDA s l g label (Ne.symm hl)
      rw [h] at h1
      obtain ⟨e', i1, i2⟩ := ih (update DECAY LAMBDA s l g) _ h1
      refine ⟨e', i1, ?_⟩
      rw [i2]
      by_cases hf : decay_fires DECAY s
      · simp only [agingFlags, hf, decide_True, List.count_cons_self, List.map_cons,
          decayedCount, hl, if_true, if_false, pow_succ]
        ring
      · simp only [agingFlags, hf, decide_False, List.map_cons, decayedCount, hl,
          if_false, List.count_cons_of_ne (by decide : true ≠ false)]
        ring

/-- The count of a label that is not stored at the start: the label is stored
exactly when a call passed it, and its count is the sum of the decayed
observations. -/
theorem runUpdates_count_absent (DECAY : Int) (LAMBDA : α) (label : Nat)
    (us : List (Nat × Draws α K)) (s : Histogram α K)
    (h : map_find label s.histogram_map = none) :
    (label ∉ us.map Prod.fst →
      map_find label (runUpdates DECAY LAMBDA s us).histogram_map = none) ∧
    (label ∈ us.map Prod.fst →
      ∃ e', map_find label (runUpdates DECAY LAMBDA s us).histogram_map = some e' ∧
        e'.cnt = decayedCount (MathH.pow MathH.M_E (-LAMBDA)) label (us.map Prod.fst)
            (agingFlags DECAY LAMBDA s us)) := by
  induction us generalizing s with
  | nil => exact ⟨fun _ => h, fun hin => absurd hin (by simp)⟩
  | cons u us ih =>
    obtain ⟨l, g⟩ := u
    rw [runUpdates_cons]
    by_cases hl : l = label
    · subst hl
      obtain ⟨e', i1, i2⟩ :=
        runUpdates_count_present DECAY LAMBDA l us (update DECAY LAMBDA s l g) _
          (update_find_absent DECAY LAMBDA s l g h)
      refine ⟨fun hnot => absurd (by simp) hnot, fun _ => ⟨e', i1, ?_⟩⟩
      rw [i2]
      simp only [agingFlags, List.map_cons, decayedCount, if_true, one_mul]
    · have h1 := update_find_other DECAY LAMBDA s l g label (Ne.symm hl)
      rw [h] at h1
      obtain ⟨i1, i2⟩ := ih (update DECAY LAMBDA s l g) h1
      constructor
      · intro hnot
        exact i1 (fun hin => hnot (by simp [hin]))
      · intro hin
        have hin' : label ∈ us.map Prod.fst := by
          rcases List.mem_cons.mp hin with h' | h'
          · exact absurd h'.symm hl
          · exact h'
        obtain ⟨e', j1, j2⟩ := i2 hin'
        refine ⟨e', j1, ?_⟩
        rw [j2]
        simp only [agingFlags, List.map_cons, decayedCount, hl, if_false, zero_add]

end Runs

/-! ## `create_sketch` -/

section Create

variable [MathH α] [LinearOrderedField α]

/-- The scan returns a running best that is below its start value and below
the score of every scanned element, and that is either the start pair or the
pair of a scanned element. -/
theorem create_sketch_scan_min (i : Fin K) (m : List (Nat × hist_elem α K))
    (init : α × Nat) :
    (create_sketch_scan i m init).1 ≤ init.1 ∧
    (∀ p ∈ m, (create_sketch_scan i m init).1
      ≤ score p.2.cnt (p.2.r i) (p.2.beta i) (p.2.c i)) ∧
    (create_sketch_scan i m init = init ∨
      ∃ p ∈ m, create_sketch_scan i m init
        = (score p.2.cnt (p.2.r i) (p.2.beta i) (p.2.c i), p.1)) := by
  induction m generalizing init with
  | nil => simp [create_sketch_scan]
  | cons q m ih =>
    have hstep : create_sketch_scan i (q :: m) init
        = create_sketch_scan i m
            (if score q.2.cnt (q.2.r i) (q.2.beta i) (q.2.c i) < init.1
              then (score q.2.cnt (q.2.r i) (q.2.beta i) (q.2.c i), q.1) else init) := rfl
    rw [hstep]
    by_cases hlt : score q.2.cnt (q.2.r i) (q.2.beta i) (q.2.c i) < init.1
    · simp only [hlt, if_true]
      obtain ⟨h1, h2, h3⟩ :=
        ih (score q.2.cnt (q.2.r i) (q.2.beta i) (q.2.c i), q.1)
      refine ⟨le_trans h1 (le_of_lt hlt), ?_, ?_⟩
      · intro p hp
        rcases List.mem_cons.mp hp with rfl | hp
        · exact h1
        · exact h2 p hp
      · right
        rcases h3 with h3 | ⟨p, hp, h3⟩
        · exact ⟨q, List.mem_cons_self _ _, h3⟩
        · exact ⟨p, List.mem_cons_of_mem _ hp, h3⟩
    · simp only [hlt, if_false]
      obtain ⟨h1, h2, h3⟩ := ih init
      refine ⟨h1, ?_, ?_⟩
      · intro p hp
        rcases List.mem_cons.mp hp with rfl | hp
        · exact le_trans h1 (not_lt.mp hlt)
        · exact h2 p hp
      · rcases h3 with h3 | ⟨p, hp, h3⟩
        · exact Or.inl h3
        · exact Or.inr ⟨p, List.mem_cons_of_mem _ hp, h3⟩

/-- On a non-empty map the slot loop of `create_sketch` returns, and it writes
into every visited slot the result of the scan started at the first element. -/
theorem create_sketch_loop (hd : Nat × hist_elem α K) (tl : List (Nat × hist_elem α K))
    (l : List (Fin K)) (hl : l.Nodup) (s : Histogram α K)
    (hm : s.histogram_map = hd :: tl) :
    ∃ s', l.foldlM (fun st i =>
        match st.histogram_map with
        | [] => none
        | it :: _ =>
          let y := MathH.pow MathH.M_E (MathH.log it.2.cnt - it.2.r i * it.2.beta i)
          let a_i := it.2.c i / (y * MathH.pow MathH.M_E (it.2.r i))
          let s_i := it.1
          let best := create_sketch_scan i st.histogram_map (a_i, s_i)
          some { st with sketch := Function.update st.sketch i best.2,
                         hash := Function.update st.hash i (best.1 : WithTop α) }) s
        = some s' ∧
      s'.histogram_map = s.histogram_map ∧ s'.size = s.size ∧ s'.t = s.t ∧
      s'.histogram_map_lock = s.histogram_map_lock ∧
      (∀ j, s'.hash j = if j ∈ l then
          (((create_sketch_scan j (hd :: tl)
            (score hd.2.cnt (hd.2.r j) (hd.2.beta j) (hd.2.c j), hd.1)).1 : α) : WithTop α)
        else s.hash j) ∧
      ∀ j, s'.sketch j = if j ∈ l then
          (create_sketch_scan j (hd :: tl)
            (score hd.2.cnt (hd.2.r j) (hd.2.beta j) (hd.2.c j), hd.1)).2
        else s.sketch j := by
  induction l generalizing s with
  | nil => exact ⟨s, rfl, rfl, rfl, rfl, rfl, by simp, by simp⟩
  | cons i l ih =>
    have hi : i ∉ l := (List.nodup_cons.mp hl).1
    obtain ⟨s', e1, e2, e3, e4, e5, e6, e7⟩ :=
      ih (List.nodup_cons.mp hl).2
        { s with
          sketch := Function.update s.sketch i
            (create_sketch_scan i (hd :: tl)
              (score hd.2.cnt (hd.2.r i) (hd.2.beta i) (hd.2.c i), hd.1)).2,
          hash := Function.update s.hash i
            (((create_sketch_scan i (hd :: tl)
              (score hd.2.cnt (hd.2.r i) (hd.2.beta i) (hd.2.c i), hd.1)).1 : α)
                : WithTop α) } hm
    refine ⟨s', ?_, e2, e3, e4, e5, ?_, ?_⟩
    · rw [List.foldlM_cons]
      simp only [hm] at e1 ⊢
      exact e1
    · intro j
      rw [e6 j]
      by_cases hj : j = i
      · subst hj
        simp [hi]
      · simp [hj, Function.update_noteq hj]
    · intro j
      rw [e7 j]
      by_cases hj : j = i
      · subst hj
        simp [hi]
      · simp [hj, Function.update_noteq hj]

/-- The method `create_sketch` on a non-empty map. -/
theorem create_sketch_of_cons (hd : Nat × hist_elem α K) (tl : List (Nat × hist_elem α K))
    (s : Histogram α K) (hm : s.histogram_map = hd :: tl) :
    ∃ s', create_sketch s = some s' ∧
      s'.histogram_map = s.histogram_map ∧ s'.size = s.size ∧ s'.t = s.t ∧
      s'.histogram_map_lock = s.histogram_map_lock ∧
      (∀ j, s'.hash j =
          (((create_sketch_scan j (hd :: tl)
            (score hd.2.cnt (hd.2.r j) (hd.2.beta j) (hd.2.c j), hd.1)).1 : α) : WithTop α)) ∧
      ∀ j, s'.sketch j =
          (create_sketch_scan j (hd :: tl)
            (score hd.2.cnt (hd.2.r j) (hd.2.beta j) (hd.2.c j), hd.1)).2 := by
  obtain ⟨s', e1, e2, e3, e4, e5, e6, e7⟩ :=
    create_sketch_loop hd tl (List.finRange K) (List.nodup_finRange K) s hm
  refine ⟨s', e1, e2, e3, e4, e5, ?_, ?_⟩
  · intro j
    have := e6 j
    simpa [List.mem_finRange] using this
  · intro j
    have := e7 j
    simpa [List.mem_finRange] using this

end Create

/-! ## Sequences with `create_sketch` -/

section Calls

variable [MathH α] [LinearOrderedField α]

/-- One call of any of the three methods keeps the parameter arrays of a
stored label, and returns. -/
theorem step_params (DECAY : Int) (LAMBDA : α) (s : Histogram α K) (c : Call α K)
    (label : Nat) (e : hist_elem α K) (h : map_find label s.histogram_map = some e) :
    ∃ s' e', Call.step DECAY LAMBDA s c = some s' ∧
      map_find label s'.histogram_map = some e' ∧
      e'.r = e.r ∧ e'.beta = e.beta ∧ e'.c = e.c := by
  cases c with
  | obs o =>
    cases o with
    | update l g =>
      refine ⟨update DECAY LAMBDA s l g, ?_⟩
      by_cases hl : label = l
      · subst hl
        exact ⟨_, rfl, update_find_present DECAY LAMBDA s label g e h, rfl, rfl, rfl⟩
      · refine ⟨{ e with cnt := if decay_fires DECAY s then
            e.cnt * MathH.pow MathH.M_E (-LAMBDA) else e.cnt }, rfl, ?_, rfl, rfl, rfl⟩
        rw [update_find_other DECAY LAMBDA s l g label hl, h]
        rfl
    | insert_label l g =>
      refine ⟨insert_label s l g, ?_⟩
      by_cases hl : label = l
      · subst hl
        refine ⟨{ e with cnt := e.cnt + 1 }, rfl, ?_, rfl, rfl, rfl⟩
        rw [insert_label_eq, update_insert_present s label g e h]
        exact map_find_set_self _ _ _ e h
      · refine ⟨e, rfl, ?_, rfl, rfl, rfl⟩
        rw [insert_label_eq, (update_insert_fields s l g).2.1 label hl, h]
  | create_sketch =>
    cases hm : s.histogram_map with
    | nil =>
      rw [hm] at h
      simp [map_find] at h
    | cons hd tl =>
      obtain ⟨s', e1, e2, _⟩ := create_sketch_of_cons hd tl s hm
      exact ⟨s', e, e1, by rw [e2, h], rfl, rfl, rfl⟩

theorem runCalls_params (DECAY : Int) (LAMBDA : α) (cs : List (Call α K))
    (s : Histogram α K) (label : Nat) (e : hist_elem α K)
    (h : map_find label s.histogram_map = some e) :
    ∃ s' e', runCalls DECAY LAMBDA s cs = some s' ∧
      map_find label s'.histogram_map = some e' ∧
      e'.r = e.r ∧ e'.beta = e.beta ∧ e'.c = e.c := by
  induction cs generalizing s e with
  | nil => exact ⟨s, e, rfl, h, rfl, rfl, rfl⟩
  | cons c cs ih =>
    obtain ⟨s1, e1, h1, h2, h3, h4, h5⟩ := step_params DECAY LAMBDA s c label e h
    obtain ⟨s2, e2, i1, i2, i3, i4, i5⟩ := ih s1 e1 h2
    refine ⟨s2, e2, ?_, i2, i3.trans h3, i4.trans h4, i5.trans h5⟩
    simp only [runCalls, List.foldlM_cons, h1]
    exact i1

end Calls

/-! ## The text of `record_sketch`, and the frame of `create_sketch` -/

section Text

theorem join_foldl (l : List String) (init : String) :
    l.foldl (fun r x => r ++ x) init = init ++ String.join l := by
  induction l generalizing init with
  | nil => simp [String.join]
  | cons a l ih =>
    have h1 := ih (init ++ a)
    have h2 := ih ("" ++ a)
    simp only [List.foldl_cons, String.join] at h1 h2 ⊢
    rw [h1, h2]
    simp [String.append_assoc]

theorem foldl_append_join (f : Fin K → String) (l : List (Fin K)) (init : String) :
    l.foldl (fun out i => out ++ f i) init = init ++ String.join (l.map f) := by
  rw [← join_foldl, List.foldl_map]

theorem record_sketch_eq (s : Histogram α K) :
    (record_sketch s).1
      = String.join ((List.finRange K).map fun i =>
          (Nat.toDigits 10 (s.sketch i)).asString ++ " ") ++ "\n" := by
  have h := foldl_append_join (fun i => (Nat.toDigits 10 (s.sketch i)).asString ++ " ")
    (List.finRange K) ""
  have he : ∀ x : String, "" ++ x = x := fun x => by
    apply String.ext
    simp
  rw [he] at h
  rw [← h]
  simp only [record_sketch, forSlots, String.append_assoc]
  rfl

/-- Whenever `create_sketch` returns, it has changed neither the map, nor
`size`, `t` or the lock. -/
theorem create_sketch_frame [MathH α] [LinearOrderedField α] (s s' : Histogram α K)
    (h : create_sketch s = some s') :
    s'.histogram_map = s.histogram_map ∧ s'.size = s.size ∧ s'.t = s.t ∧
    s'.histogram_map_lock = s.histogram_map_lock := by
  cases hm : s.histogram_map with
  | cons hd tl =>
    obtain ⟨s1, e1, e2, e3, e4, e5, _⟩ := create_sketch_of_cons hd tl s hm
    rw [h] at e1
    rw [Option.some.inj e1, ← hm]
    exact ⟨e2, e3, e4, e5⟩
  | nil =>
    unfold create_sketch at h
    cases hl : List.finRange K with
    | nil =>
      rw [hl] at h
      have hs : s' = s := (Option.some.inj h).symm
      rw [hs]
      exact ⟨hm, rfl, rfl, rfl⟩
    | cons i l =>
      rw [hl, List.foldlM_cons] at h
      simp [hm] at h

end Text

/-! ## The entries of the map after a call -/

section Entries

theorem map_find_mem {V : Type} (k : Nat) (e : V) (m : List (Nat × V))
    (h : map_find k m = some e) : (k, e) ∈ m := by
  induction m with
  | nil => simp [map_find] at h
  | cons p m ih =>
    by_cases hp : p.1 = k
    · simp only [map_find, hp, if_true, Option.some.injEq] at h
      rw [← h, ← hp]
      exact List.mem_cons_self _ _
    · simp only [map_find, hp, if_false] at h
      exact List.mem_cons_of_mem _ (ih h)

theorem mem_map_place {V : Type} (k : Nat) (v : V) (m : List (Nat × V)) (p : Nat × V) :
    p ∈ map_place k v m ↔ p = (k, v) ∨ p ∈ m := by
  induction m with
  | nil => simp [map_place]
  | cons q m ih =>
    by_cases hlt : k < q.1
    · simp [map_place, hlt]
    · simp only [map_place, hlt, if_false, List.mem_cons, ih]
      tauto

theorem mem_map_set {V : Type} (k : Nat) (v : V) (m : List (Nat × V)) (p : Nat × V)
    (h : p ∈ map_set k v m) : p = (k, v) ∨ p ∈ m := by
  induction m with
  | nil => simp [map_set] at h
  | cons q m ih =>
    by_cases hq : q.1 = k
    · simp only [map_set, hq, if_true, List.mem_cons] at h
      rcases h with h | h
      · exact Or.inl h
      · exact Or.inr (List.mem_cons_of_mem _ h)
    · simp only [map_set, hq, if_false, List.mem_cons] at h
      rcases h with h | h
      · exact Or.inr (by rw [h]; exact List.mem_cons_self _ _)
      · rcases ih h with h' | h'
        · exact Or.inl h'
        · exact Or.inr (List.mem_cons_of_mem _ h')

theorem mem_map_set_of_mem {V : Type} (k : Nat) (v : V) (m : List (Nat × V))
    (p : Nat × V) (h : p ∈ m) :
    p ∈ map_set k v m ∨ (p.1 = k ∧ map_find k m = some p.2) := by
  induction m with
  | nil => simp at h
  | cons q m ih =>
    by_cases hq : q.1 = k
    · rcases List.mem_cons.mp h with h | h
      · right
        rw [h]
        exact ⟨hq, by simp [map_find, hq]⟩
      · left
        simp only [map_set, hq, if_true]
        exact List.mem_cons_of_mem _ h
    · simp only [map_set, hq, if_false, map_find]
      rcases List.mem_cons.mp h with h | h
      · left
        rw [h]
        exact List.mem_cons_self _ _
      · rcases ih h with h' | h'
        · exact Or.inl (List.mem_cons_of_mem _ h')
        · exact Or.inr h'

/-- The entries of the map after the insertion step: the element of the label
is among them, every other one was there before, and every entry that was
there before is still there unless it is the one whose count was incremented. -/
theorem update_insert_mem [One α] [Add α] (s : Histogram α K) (label : Nat)
    (g : Draws α K) :
    (label, (update_insert s label g).2) ∈ (update_insert s label g).1.histogram_map ∧
    (∀ p ∈ (update_insert s label g).1.histogram_map,
      p = (label, (update_insert s label g).2) ∨ p ∈ s.histogram_map) ∧
    (∀ p ∈ s.histogram_map, p ∈ (update_insert s label g).1.histogram_map ∨
      (p.1 = label ∧ (update_insert s label g).2 = { p.2 with cnt := p.2.cnt + 1 })) ∧
    ((update_insert s label g).2 = new_elem g ∨
      ∃ e, (label, e) ∈ s.histogram_map ∧
        (update_insert s label g).2 = { e with cnt := e.cnt + 1 }) := by
  have h1 := map_find_mem _ _ _ (update_insert_fields s label g).1
  cases hf : map_find label s.histogram_map with
  | none =>
    rw [update_insert_absent s label g hf] at h1 ⊢
    refine ⟨h1, ?_, ?_, Or.inl rfl⟩
    · intro p hp
      exact (mem_map_place _ _ _ p).mp hp
    · intro p hp
      exact Or.inl ((mem_map_place _ _ _ p).mpr (Or.inr hp))
  | some e =>
    rw [update_insert_present s label g e hf] at h1 ⊢
    refine ⟨h1, ?_, ?_, Or.inr ⟨e, map_find_mem _ _ _ hf, rfl⟩⟩
    · intro p hp
      exact mem_map_set _ _ _ p hp
    · intro p hp
      rcases mem_map_set_of_mem label { e with cnt := e.cnt + 1 } _ p hp with h | ⟨h, h'⟩
      · exact Or.inl h
      · rw [hf] at h'
        rw [← Option.some.inj h']
        exact Or.inr ⟨h, rfl⟩

theorem update_insert_keys [One α] [Add α] (s : Histogram α K) (label : Nat)
    (g : Draws α K) (k : Nat) :
    k ∈ (update_insert s label g).1.histogram_map.map Prod.fst ↔
      k = label ∨ k ∈ s.histogram_map.map Prod.fst := by
  obtain ⟨hin, hout⟩ := update_insert_store s label g
  by_cases hl : label ∈ s.histogram_map.map Prod.fst
  · rw [(hin hl).1]
    constructor
    · exact fun h => Or.inr h
    · rintro (rfl | h)
      · exact hl
      · exact h
  · rw [(hout hl).1.mem_iff, List.mem_cons]

theorem update_decay_map [MathH α] [LinearOrderedField α] (DECAY : Int) (LAMBDA : α)
    (s : Histogram α K) :
    (update_decay DECAY LAMBDA s).histogram_map
      = if decay_fires DECAY s then
          s.histogram_map.map (fun it =>
            (it.1, { it.2 with cnt := it.2.cnt * MathH.pow MathH.M_E (-LAMBDA) }))
        else s.histogram_map := by
  by_cases h : decay_fires DECAY s
  · rw [update_decay_of_fires DECAY LAMBDA s h, if_pos h]
    exact (aging_pass_fields LAMBDA _).1
  · rw [update_decay_of_not_fires DECAY LAMBDA s h, if_neg h]

/-- The map of `update` is the map of its insertion step. -/
theorem update_map [MathH α] [LinearOrderedField α] (DECAY : Int) (LAMBDA : α)
    (s : Histogram α K) (label : Nat) (g : Draws α K) :
    (update DECAY LAMBDA s label g).histogram_map
      = (update_insert (update_decay DECAY LAMBDA s) label g).1.histogram_map :=
  (update_hash_fields _ label _).1

theorem update_keys [MathH α] [LinearOrderedField α] (DECAY : Int) (LAMBDA : α)
    (s : Histogram α K) (label : Nat) (g : Draws α K) (k : Nat) :
    k ∈ (update DECAY LAMBDA s label g).histogram_map.map Prod.fst ↔
      k = label ∨ k ∈ s.histogram_map.map Prod.fst := by
  rw [update_map, update_insert_keys, (update_decay_frame DECAY LAMBDA s).2.2.2.1]

end Entries

/-! ## Batch initialisation -/

section Batch

/-- Two calls `insert_label(x)` on a store without `x` give the state of one
call in which the count of `x` is then set to 2; the second draws are dropped. -/
theorem insert_label_twice [LinearOrderedField α] (s : Histogram α K) (x : Nat)
    (g1 g2 : Draws α K)
    (h : map_find x s.histogram_map = none) :
    insert_label (insert_label s x g1) x g2
      = { insert_label s x g1 with
          histogram_map := map_set x { cnt := 2, r := g1.r, beta := g1.beta, c := g1.c }
            (insert_label s x g1).histogram_map } := by
  have h1 : insert_label s x g1
      = { s with histogram_map := map_place x (new_elem g1) s.histogram_map,
                 size := s.size + 1 } := by
    rw [insert_label_eq, update_insert_absent s x g1 h]
  have h2 : map_find x (insert_label s x g1).histogram_map = some (new_elem g1) := by
    rw [h1]
    exact map_find_place_self _ _ _ h
  rw [insert_label_eq (insert_label s x g1), update_insert_present _ x g2 _ h2]
  simp only [new_elem, one_add_one_eq_two]

/-- The method `create_sketch` returns on every state whose map is not empty. -/
theorem create_sketch_returns [MathH α] [LinearOrderedField α] (s : Histogram α K)
    (hne : s.histogram_map ≠ []) :
    ∃ s', create_sketch s = some s' := by
  cases hm : s.histogram_map with
  | nil => exact absurd hm hne
  | cons hd tl =>
    obtain ⟨s', e1, _⟩ := create_sketch_of_cons hd tl s hm
    exact ⟨s', e1⟩

end Batch

/-! ## Invariants of the calls -/

section Invariants

variable [MathH α] [LinearOrderedField α]

theorem create_sketch_sketchInKeys (pre s0 : Histogram α K)
    (hne : pre.histogram_map ≠ []) (h : create_sketch pre = some s0) :
    sketchInKeys s0 := by
  cases hm : pre.histogram_map with
  | nil => exact absurd hm hne
  | cons hd tl =>
    obtain ⟨s1, e1, e2, _, _, _, _, e7⟩ := create_sketch_of_cons hd tl pre hm
    rw [h] at e1
    rw [Option.some.inj e1]
    refine ⟨by rw [e2, hm]; simp, ?_⟩
    intro i
    rw [e7 i, e2, hm]
    rcases (create_sketch_scan_min i (hd :: tl)
      (score hd.2.cnt (hd.2.r i) (hd.2.beta i) (hd.2.c i), hd.1)).2.2 with h3 | ⟨p, hp, h3⟩
    · rw [h3]
      simp
    · rw [h3]
      exact List.mem_map_of_mem Prod.fst hp

theorem update_sketchInKeys (DECAY : Int) (LAMBDA : α) (s : Histogram α K) (label : Nat)
    (g : Draws α K)
    (h : ∀ i, s.hash i = ⊤ ∨ s.sketch i ∈ s.histogram_map.map Prod.fst) :
    sketchInKeys (update DECAY LAMBDA s label g) := by
  have hlab : label ∈ (update DECAY LAMBDA s label g).histogram_map.map Prod.fst :=
    (update_keys DECAY LAMBDA s label g label).mpr (Or.inl rfl)
  refine ⟨fun hnil => by rw [hnil] at hlab; simp at hlab, ?_⟩
  intro i
  rw [(update_hash_at DECAY LAMBDA s label g _ (update_find_label DECAY LAMBDA s label g) i).2]
  split_ifs with hlt
  · exact hlab
  · rcases h i with htop | hk
    · exfalso
      apply hlt
      rw [update_decay_hash, htop]
      split_ifs
      · exact WithTop.coe_lt_top _
      · exact WithTop.coe_lt_top _
    · exact (update_keys DECAY LAMBDA s label g _).mpr (Or.inr hk)

theorem step_sketchInKeys (DECAY : Int) (LAMBDA : α) (s : Histogram α K) (c : Call α K)
    (h : sketchInKeys s) :
    ∃ s', Call.step DECAY LAMBDA s c = some s' ∧ sketchInKeys s' := by
  cases c with
  | obs o =>
    cases o with
    | update l g =>
      exact ⟨_, rfl, update_sketchInKeys DECAY LAMBDA s l g (fun i => Or.inr (h.2 i))⟩
    | insert_label l g =>
      refine ⟨insert_label s l g, rfl, ?_⟩
      have hk : ∀ k, k ∈ s.histogram_map.map Prod.fst →
          k ∈ (insert_label s l g).histogram_map.map Prod.fst := by
        intro k hk
        rw [insert_label_eq]
        exact (update_insert_keys s l g k).mpr (Or.inr hk)
      refine ⟨?_, ?_⟩
      · intro hnil
        have hl : l ∈ (insert_label s l g).histogram_map.map Prod.fst := by
          rw [insert_label_eq]
          exact (update_insert_keys s l g l).mpr (Or.inl rfl)
        rw [hnil] at hl
        simp at hl
      · intro i
        rw [(insert_label_frame s l g).2.2.1]
        exact hk _ (h.2 i)
  | create_sketch =>
    obtain ⟨s', hs⟩ := create_sketch_returns s h.1
    exact ⟨s', hs, create_sketch_sketchInKeys s s' h.1 hs⟩

theorem runCalls_sketchInKeys (DECAY : Int) (LAMBDA : α) (cs : List (Call α K))
    (s : Histogram α K) (h : sketchInKeys s) :
    ∃ s', runCalls DECAY LAMBDA s cs = some s' ∧ sketchInKeys s' := by
  induction cs generalizing s with
  | nil => exact ⟨s, rfl, h⟩
  | cons c cs ih =>
    obtain ⟨s1, h1, h2⟩ := step_sketchInKeys DECAY LAMBDA s c h
    obtain ⟨s2, i1, i2⟩ := ih s1 h2
    refine ⟨s2, ?_, i2⟩
    simp only [runCalls, List.foldlM_cons, h1]
    exact i1

end Invariants

/-! ## Real arithmetic -/

section Reals

theorem pow_M_E_real (x : ℝ) : MathH.pow (MathH.M_E : ℝ) x = Real.exp x :=
  Real.exp_one_rpow x

theorem log_real (x : ℝ) : MathH.log x = Real.log x := rfl

theorem score_real (w r beta c : ℝ) (hw : 0 < w) :
    score w r beta c = c * Real.exp (r * (beta - 1)) / w := by
  have h1 : Real.exp (Real.log w - r * beta) * Real.exp r
      = w * Real.exp (r - r * beta) := by
    rw [Real.exp_sub, Real.exp_log hw, Real.exp_sub]
    field_simp
  have h2 : Real.exp (r * (beta - 1)) * Real.exp (r - r * beta) = 1 := by
    rw [← Real.exp_add]
    have : r * (beta - 1) + (r - r * beta) = 0 := by ring
    rw [this, Real.exp_zero]
  have hne : Real.exp (r - r * beta) ≠ 0 := (Real.exp_pos _).ne'
  simp only [score, pow_M_E_real, log_real]
  rw [h1, div_eq_div_iff (mul_ne_zero hw.ne' hne) hw.ne']
  calc c * w = c * (Real.exp (r * (beta - 1)) * Real.exp (r - r * beta)) * w := by
        rw [h2, mul_one]
    _ = c * Real.exp (r * (beta - 1)) * (w * Real.exp (r - r * beta)) := by ring

end Reals

/-! ## Positive counts and parameters -/

section Positive

theorem score_pos (w r beta c : ℝ) (hw : 0 < w) (hc : 0 < c) : 0 < score w r beta c := by
  rw [score_real w r beta c hw]
  exact div_pos (mul_pos hc (Real.exp_pos _)) hw

theorem score_succ_le (w r beta c : ℝ) (hw : 0 < w) (hc : 0 < c) :
    score (w + 1) r beta c ≤ score w r beta c := by
  rw [score_real w r beta c hw, score_real (w + 1) r beta c (by linarith)]
  exact div_le_div_of_nonneg_left (mul_pos hc (Real.exp_pos _)).le hw (by linarith)

theorem score_scale (w r beta c f : ℝ) (hw : 0 < w) (hf : 0 < f) :
    score (w * f) r beta c = score w r beta c / f := by
  rw [score_real w r beta c hw, score_real (w * f) r beta c (mul_pos hw hf)]
  field_simp

theorem update_decay_countsPositive (DECAY : Int) (LAMBDA : ℝ) (s : Histogram ℝ K)
    (h : countsPositive s) : countsPositive (update_decay DECAY LAMBDA s) := by
  intro p hp
  rw [update_decay_map] at hp
  split_ifs at hp
  · obtain ⟨q, hq, rfl⟩ := List.mem_map.mp hp
    rw [pow_M_E_real]
    exact mul_pos (h q hq) (Real.exp_pos _)
  · exact h p hp

theorem update_decay_csPositive [MathH α] [LinearOrderedField α] (DECAY : Int) (LAMBDA : α)
    (s : Histogram α K) (h : csPositive s) : csPositive (update_decay DECAY LAMBDA s) := by
  intro p hp
  rw [update_decay_map] at hp
  split_ifs at hp
  · obtain ⟨q, hq, rfl⟩ := List.mem_map.mp hp
    exact h q hq
  · exact h p hp

theorem update_insert_countsPositive [LinearOrderedField α] (s : Histogram α K)
    (label : Nat) (g : Draws α K) (h : countsPositive s) :
    countsPositive (update_insert s label g).1 := by
  obtain ⟨_, h2, _, h4⟩ := update_insert_mem s label g
  intro p hp
  rcases h2 p hp with rfl | hp'
  · rcases h4 with h4 | ⟨e, he, h4⟩
    · show 0 < (update_insert s label g).2.cnt
      rw [h4]
      exact zero_lt_one
    · show 0 < (update_insert s label g).2.cnt
      rw [h4]
      exact add_pos (h _ he) zero_lt_one
  · exact h p hp'

theorem update_insert_csPositive [LinearOrderedField α] (s : Histogram α K)
    (label : Nat) (g : Draws α K) (h : csPositive s) (hg : ∀ i, 0 < g.c i) :
    csPositive (update_insert s label g).1 := by
  obtain ⟨_, h2, _, h4⟩ := update_insert_mem s label g
  intro p hp i
  rcases h2 p hp with rfl | hp'
  · rcases h4 with h4 | ⟨e, he, h4⟩
    · show 0 < (update_insert s label g).2.c i
      rw [h4]
      exact hg i
    · show 0 < (update_insert s label g).2.c i
      rw [h4]
      exact h _ he i
  · exact h p hp' i

theorem update_countsPositive (DECAY : Int) (LAMBDA : ℝ) (s : Histogram ℝ K) (label : Nat)
    (g : Draws ℝ K) (h : countsPositive s) :
    countsPositive (update DECAY LAMBDA s label g) := by
  intro p hp
  rw [update_map] at hp
  exact update_insert_countsPositive _ label g
    (update_decay_countsPositive DECAY LAMBDA s h) p hp

theorem update_csPositive [MathH α] [LinearOrderedField α] (DECAY : Int) (LAMBDA : α)
    (s : Histogram α K) (label : Nat) (g : Draws α K) (h : csPositive s)
    (hg : ∀ i, 0 < g.c i) : csPositive (update DECAY LAMBDA s label g) := by
  intro p hp
  rw [update_map] at hp
  exact update_insert_csPositive _ label g (update_decay_csPositive DECAY LAMBDA s h) hg p hp

theorem step_countsPositive (DECAY : Int) (LAMBDA : ℝ) (s s' : Histogram ℝ K)
    (c : Call ℝ K) (h : countsPositive s) (hs : Call.step DECAY LAMBDA s c = some s') :
    countsPositive s' := by
  cases c with
  | obs o =>
    have hs' : s' = o.step DECAY LAMBDA s := (Option.some.inj hs).symm
    rw [hs']
    cases o with
    | update l g => exact update_countsPositive DECAY LAMBDA s l g h
    | insert_label l g =>
      show countsPositive (insert_label s l g)
      rw [insert_label_eq]
      exact update_insert_countsPositive s l g h
  | create_sketch =>
    intro p hp
    rw [(create_sketch_frame s s' hs).1] at hp
    exact h p hp

theorem runCalls_countsPositive (DECAY : Int) (LAMBDA : ℝ) (cs : List (Call ℝ K))
    (s s' : Histogram ℝ K) (h : countsPositive s)
    (hs : runCalls DECAY LAMBDA s cs = some s') : countsPositive s' := by
  induction cs generalizing s with
  | nil =>
    have : s' = s := (Option.some.inj hs).symm
    rw [this]
    exact h
  | cons c cs ih =>
    simp only [runCalls, List.foldlM_cons] at hs
    cases hc : Call.step DECAY LAMBDA s c with
    | none => rw [hc] at hs; simp at hs
    | some s1 =>
      rw [hc] at hs
      exact ih s1 (step_countsPositive DECAY LAMBDA s s1 c h hc) hs

end Positive

/-! ## The hash as a bound of the scores -/

section Bounds

/-- The insertion step and the hash loop keep `hash[i]` below every score. -/
theorem update_hashBelowScores_of_decay [MathH α] [LinearOrderedField α] (DECAY : Int)
    (LAMBDA : α) (s : Histogram α K) (label : Nat) (g : Draws α K)
    (h : hashBelowScores (update_decay DECAY LAMBDA s)) :
    hashBelowScores (update DECAY LAMBDA s label g) := by
  intro i p hp
  rw [(update_hash_at DECAY LAMBDA s label g _ (update_find_label DECAY LAMBDA s label g) i).1]
  rw [update_map] at hp
  rcases (update_insert_mem (update_decay DECAY LAMBDA s) label g).2.1 p hp with rfl | hp'
  · exact min_le_right _ _
  · exact le_trans (min_le_left _ _) (h i p hp')

/-- With `LAMBDA >= 0`, positive counts and positive `c`, the decay step keeps
`hash[i]` below every score: the hash shrinks and the scores grow. -/
theorem update_decay_hashBelowScores (DECAY : Int) (LAMBDA : ℝ) (hl : 0 ≤ LAMBDA)
    (s : Histogram ℝ K) (hw : countsPositive s) (hc : csPositive s)
    (h : hashBelowScores s) : hashBelowScores (update_decay DECAY LAMBDA s) := by
  intro i p hp
  rw [update_decay_map] at hp
  rw [update_decay_hash]
  split_ifs at hp ⊢
  · obtain ⟨q, hq, rfl⟩ := List.mem_map.mp hp
    have hle := h i q hq
    have hf0 : 0 < Real.exp (-LAMBDA) := Real.exp_pos _
    have hf1 : Real.exp (-LAMBDA) ≤ 1 := Real.exp_le_one_iff.mpr (by linarith)
    have hsc := score_pos q.2.cnt (q.2.r i) (q.2.beta i) (q.2.c i) (hw q hq) (hc q hq i)
    cases hh : s.hash i with
    | top =>
      rw [hh] at hle
      exact absurd hle (WithTop.not_top_le_coe _)
    | coe x =>
      rw [hh] at hle
      have hx : x ≤ score q.2.cnt (q.2.r i) (q.2.beta i) (q.2.c i) :=
        WithTop.coe_le_coe.mp hle
      simp only [pow_M_E_real, WithTop.map_coe]
      rw [score_scale _ _ _ _ _ (hw q hq) hf0]
      apply WithTop.coe_le_coe.mpr
      rw [le_div_iff₀ hf0]
      calc x * Real.exp (-LAMBDA) * Real.exp (-LAMBDA)
          ≤ score q.2.cnt (q.2.r i) (q.2.beta i) (q.2.c i) * 1 * 1 := by
            apply mul_le_mul _ hf1 hf0.le (by linarith)
            by_cases hx0 : 0 ≤ x
            · exact mul_le_mul hx hf1 hf0.le hsc.le
            · have : x * Real.exp (-LAMBDA) ≤ 0 :=
                mul_nonpos_of_nonpos_of_nonneg (by linarith) hf0.le
              linarith
        _ = score q.2.cnt (q.2.r i) (q.2.beta i) (q.2.c i) := by ring
  · exact h i p hp

theorem update_hashBelowScores (DECAY : Int) (LAMBDA : ℝ) (hl : 0 ≤ LAMBDA)
    (s : Histogram ℝ K) (label : Nat) (g : Draws ℝ K) (hw : countsPositive s)
    (hc : csPositive s) (h : hashBelowScores s) :
    hashBelowScores (update DECAY LAMBDA s label g) :=
  update_hashBelowScores_of_decay DECAY LAMBDA s label g
    (update_decay_hashBelowScores DECAY LAMBDA hl s hw hc h)

theorem runUpdates_hashBelowScores (DECAY : Int) (LAMBDA : ℝ) (hl : 0 ≤ LAMBDA)
    (us : List (Nat × Draws ℝ K)) (s : Histogram ℝ K) (hw : countsPositive s)
    (hc : csPositive s) (h : hashBelowScores s) (hdraw : ∀ u ∈ us, ∀ i, 0 < u.2.c i) :
    hashBelowScores (runUpdates DECAY LAMBDA s us) := by
  induction us generalizing s with
  | nil => exact h
  | cons u us ih =>
    rw [runUpdates_cons]
    exact ih _ (update_countsPositive DECAY LAMBDA s u.1 u.2 hw)
      (update_csPositive DECAY LAMBDA s u.1 u.2 hc (hdraw u (List.mem_cons_self _ _)))
      (update_hashBelowScores DECAY LAMBDA hl s u.1 u.2 hw hc h)
      (fun v hv => hdraw v (List.mem_cons_of_mem _ hv))

/-- Right after `create_sketch` on a non-empty store, `hash[i]` is below every
score. -/
theorem create_sketch_hashBelowScores [MathH α] [LinearOrderedField α]
    (pre s0 : Histogram α K) (h : create_sketch pre = some s0)
    (hne : pre.histogram_map ≠ []) : hashBelowScores s0 := by
  cases hm : pre.histogram_map with
  | nil => exact absurd hm hne
  | cons hd tl =>
    obtain ⟨s1, e1, e2, _, _, _, e6, _⟩ := create_sketch_of_cons hd tl pre hm
    rw [h] at e1
    rw [Option.some.inj e1]
    intro i p hp
    rw [e2, hm] at hp
    rw [e6 i]
    exact WithTop.coe_le_coe.mpr
      ((create_sketch_scan_min i (hd :: tl)
        (score hd.2.cnt (hd.2.r i) (hd.2.beta i) (hd.2.c i), hd.1)).2.1 p hp)

/-- A call of `update` without a decay keeps the hash exact: below every score
and attained by the entry under `sketch[i]`. -/
theorem update_exact (DECAY : Int) (LAMBDA : ℝ) (s : Histogram ℝ K) (label : Nat)
    (g : Draws ℝ K) (hnf : ¬ decay_fires DECAY s) (hw : countsPositive s)
    (hc : csPositive s) (h : hashBelowScores s) (ha : hashAttained s) :
    hashBelowScores (update DECAY LAMBDA s label g) ∧
    hashAttained (update DECAY LAMBDA s label g) := by
  have hd : update_decay DECAY LAMBDA s = { s with t := s.t + 1 } :=
    update_decay_of_not_fires DECAY LAMBDA s hnf
  have hlb : hashBelowScores (update DECAY LAMBDA s label g) := by
    apply update_hashBelowScores_of_decay
    rw [hd]
    exact h
  refine ⟨hlb, ?_⟩
  intro i
  obtain ⟨h1, _, h3, _⟩ := update_insert_mem (update_decay DECAY LAMBDA s) label g
  obtain ⟨hh, hs⟩ :=
    update_hash_at DECAY LAMBDA s label g _ (update_find_label DECAY LAMBDA s label g) i
  have hb : (update_decay DECAY LAMBDA s).hash i = s.hash i := by rw [hd]
  rw [hb] at hh hs
  by_cases hlt : ((score (update_insert (update_decay DECAY LAMBDA s) label g).2.cnt
      ((update_insert (update_decay DECAY LAMBDA s) label g).2.r i)
      ((update_insert (update_decay DECAY LAMBDA s) label g).2.beta i)
      ((update_insert (update_decay DECAY LAMBDA s) label g).2.c i) : ℝ) : WithTop ℝ)
      < s.hash i
  · refine ⟨(label, (update_insert (update_decay DECAY LAMBDA s) label g).2), ?_, ?_, ?_⟩
    · rw [update_map]
      exact h1
    · rw [hs, if_pos hlt]
    · rw [hh, min_eq_right hlt.le]
  · rw [if_neg hlt] at hs
    rw [min_eq_left (not_lt.mp hlt)] at hh
    obtain ⟨p, hp, hp1, hp2⟩ := ha i
    have hp' : p ∈ (update_decay DECAY LAMBDA s).histogram_map := by
      rw [hd]
      exact hp
    rcases h3 p hp' with hin | ⟨hpl, he⟩
    · refine ⟨p, ?_, ?_, ?_⟩
      · rw [update_map]
        exact hin
      · rw [hs, hp1]
      · rw [hh, hp2]
    · refine ⟨(label, (update_insert (update_decay DECAY LAMBDA s) label g).2), ?_, ?_, ?_⟩
      · rw [update_map]
        exact h1
      · rw [hs, ← hp1, hpl]
      · rw [hh]
        apply le_antisymm (not_lt.mp hlt)
        rw [hp2, he]
        exact WithTop.coe_le_coe.mpr
          (score_succ_le p.2.cnt (p.2.r i) (p.2.beta i) (p.2.c i) (hw p hp) (hc p hp i))

theorem runUpdates_exact (DECAY : Int) (LAMBDA : ℝ) (us : List (Nat × Draws ℝ K))
    (s : Histogram ℝ K) (hw : countsPositive s) (hc : csPositive s)
    (h : hashBelowScores s) (ha : hashAttained s)
    (hdraw : ∀ u ∈ us, ∀ i, 0 < u.2.c i)
    (hno : true ∉ agingFlags DECAY LAMBDA s us) :
    hashBelowScores (runUpdates DECAY LAMBDA s us) ∧
    hashAttained (runUpdates DECAY LAMBDA s us) := by
  induction us generalizing s with
  | nil => exact ⟨h, ha⟩
  | cons u us ih =>
    simp only [agingFlags, List.mem_cons, not_or] at hno
    have hnf : ¬ decay_fires DECAY s := by
      intro hf
      exact hno.1 (by simp [hf])
    obtain ⟨h1, h2⟩ := update_exact DECAY LAMBDA s u.1 u.2 hnf hw hc h ha
    rw [runUpdates_cons]
    exact ih _ (update_countsPositive DECAY LAMBDA s u.1 u.2 hw)
      (update_csPositive DECAY LAMBDA s u.1 u.2 hc (hdraw u (List.mem_cons_self _ _)))
      h1 h2 (fun v hv => hdraw v (List.mem_cons_of_mem _ hv)) hno.2

end Bounds

/-! ## Ties in `create_sketch` -/

section Ties

variable [MathH α] [LinearOrderedField α]

/-- The scan keeps its start pair when no element is strictly better, and
otherwise returns the first element that attains the least score. -/
theorem create_sketch_scan_first (i : Fin K) (m : List (Nat × hist_elem α K))
    (init : α × Nat) :
    (create_sketch_scan i m init = init ∧
      ∀ p ∈ m, init.1 ≤ score p.2.cnt (p.2.r i) (p.2.beta i) (p.2.c i)) ∨
    ∃ l1 p l2, m = l1 ++ p :: l2 ∧
      create_sketch_scan i m init
        = (score p.2.cnt (p.2.r i) (p.2.beta i) (p.2.c i), p.1) ∧
      score p.2.cnt (p.2.r i) (p.2.beta i) (p.2.c i) < init.1 ∧
      (∀ q ∈ l1, score p.2.cnt (p.2.r i) (p.2.beta i) (p.2.c i)
        < score q.2.cnt (q.2.r i) (q.2.beta i) (q.2.c i)) ∧
      ∀ q ∈ l2, score p.2.cnt (p.2.r i) (p.2.beta i) (p.2.c i)
        ≤ score q.2.cnt (q.2.r i) (q.2.beta i) (q.2.c i) := by
  induction m generalizing init with
  | nil => exact Or.inl ⟨rfl, by simp⟩
  | cons x m ih =>
    have hstep : create_sketch_scan i (x :: m) init
        = create_sketch_scan i m
            (if score x.2.cnt (x.2.r i) (x.2.beta i) (x.2.c i) < init.1
              then (score x.2.cnt (x.2.r i) (x.2.beta i) (x.2.c i), x.1) else init) := rfl
    rw [hstep]
    by_cases hlt : score x.2.cnt (x.2.r i) (x.2.beta i) (x.2.c i) < init.1
    · simp only [hlt, if_true]
      rcases ih (score x.2.cnt (x.2.r i) (x.2.beta i) (x.2.c i), x.1) with
        ⟨h1, h2⟩ | ⟨l1, p, l2, h1, h2, h3, h4, h5⟩
      · exact Or.inr ⟨[], x, m, rfl, h1, hlt, by simp, h2⟩
      · refine Or.inr ⟨x :: l1, p, l2, by rw [h1]; rfl, h2, lt_trans h3 hlt, ?_, h5⟩
        intro q hq
        rcases List.mem_cons.mp hq with rfl | hq
        · exact h3
        · exact h4 q hq
    · simp only [hlt, if_false]
      rcases ih init with ⟨h1, h2⟩ | ⟨l1, p, l2, h1, h2, h3, h4, h5⟩
      · refine Or.inl ⟨h1, ?_⟩
        intro p hp
        rcases List.mem_cons.mp hp with rfl | hp
        · exact not_lt.mp hlt
        · exact h2 p hp
      · refine Or.inr ⟨x :: l1, p, l2, by rw [h1]; rfl, h2, h3, ?_, h5⟩
        intro q hq
        rcases List.mem_cons.mp hq with rfl | hq
        · exact lt_of_lt_of_le h3 (not_lt.mp hlt)
        · exact h4 q hq

/-- On a map with ascending keys, the label the scan returns is at most the key
of every element whose score equals the returned score. -/
theorem create_sketch_scan_smallest (i : Fin K) (hd : Nat × hist_elem α K)
    (tl : List (Nat × hist_elem α K))
    (hs : ((hd :: tl).map Prod.fst).Sorted (· < ·)) (q : Nat × hist_elem α K)
    (hq : q ∈ hd :: tl)
    (he : score q.2.cnt (q.2.r i) (q.2.beta i) (q.2.c i)
      = (create_sketch_scan i (hd :: tl)
          (score hd.2.cnt (hd.2.r i) (hd.2.beta i) (hd.2.c i), hd.1)).1) :
    (create_sketch_scan i (hd :: tl)
      (score hd.2.cnt (hd.2.r i) (hd.2.beta i) (hd.2.c i), hd.1)).2 ≤ q.1 := by
  rcases create_sketch_scan_first i (hd :: tl)
      (score hd.2.cnt (hd.2.r i) (hd.2.beta i) (hd.2.c i), hd.1) with
    ⟨h1, _⟩ | ⟨l1, p, l2, h1, h2, _, h4, _⟩
  · rw [h1]
    simp only [List.map_cons, List.sorted_cons] at hs
    rcases List.mem_cons.mp hq with rfl | hq'
    · exact le_refl _
    · exact (hs.1 q.1 (List.mem_map_of_mem Prod.fst hq')).le
  · rw [h2] at he ⊢
    rw [h1] at hq hs
    rcases List.mem_append.mp hq with hq1 | hq2
    · exact absurd he (ne_of_gt (h4 q hq1))
    · rcases List.mem_cons.mp hq2 with rfl | hq3
      · exact le_refl _
      · simp only [List.map_append, List.map_cons] at hs
        have hp := (List.pairwise_append.mp hs).2.1
        exact ((List.pairwise_cons.mp hp).1 q.1 (List.mem_map_of_mem Prod.fst hq3)).le

end Ties

/-! ## The state `agedExample` is reached -/

section Reached

/-- Two calls `update(7)` from the initial state, with `DECAY = 3` and all
draws 1, end in the state `agedExample`. -/
theorem agedExample_reached (LAMBDA : ℝ) :
    (runUpdates 3 LAMBDA (initial (fun _ => 0) : Histogram ℝ 1)
      [(7, constDraws 1), (7, constDraws 1)]).histogram_map
        = (agedExample : Histogram ℝ 1).histogram_map ∧
    (runUpdates 3 LAMBDA (initial (fun _ => 0) : Histogram ℝ 1)
      [(7, constDraws 1), (7, constDraws 1)]).t = (agedExample : Histogram ℝ 1).t ∧
    (∀ i, (runUpdates 3 LAMBDA (initial (fun _ => 0) : Histogram ℝ 1)
      [(7, constDraws 1), (7, constDraws 1)]).hash i = (agedExample : Histogram ℝ 1).hash i) ∧
    ∀ i, (runUpdates 3 LAMBDA (initial (fun _ => 0) : Histogram ℝ 1)
      [(7, constDraws 1), (7, constDraws 1)]).sketch i
        = (agedExample : Histogram ℝ 1).sketch i := by
  have hf0 : ¬ decay_fires 3 (initial (fun _ => 0) : Histogram ℝ 1) := by
    simp [decay_fires, initial]
  have ht1 : (update 3 LAMBDA (initial (fun _ => 0) : Histogram ℝ 1) 7 (constDraws 1)).t
      = 1 := by
    rw [update_t, if_neg hf0]
    simp [initial]
  have hf1 : ¬ decay_fires 3
      (update 3 LAMBDA (initial (fun _ => 0) : Histogram ℝ 1) 7 (constDraws 1)) := by
    unfold decay_fires
    rw [ht1]
    norm_num
  have hd0 : update_decay 3 LAMBDA (initial (fun _ => 0) : Histogram ℝ 1)
      = { (initial (fun _ => 0) : Histogram ℝ 1) with t := 0 + 1 } :=
    update_decay_of_not_fires 3 LAMBDA _ hf0
  have hm1 : (update 3 LAMBDA (initial (fun _ => 0) : Histogram ℝ 1) 7
      (constDraws 1)).histogram_map = [(7, new_elem (constDraws 1))] := by
    have hdm : (update_decay 3 LAMBDA (initial (fun _ => 0) : Histogram ℝ 1)).histogram_map
        = [] := by
      rw [update_decay_map, if_neg hf0]
      rfl
    rw [update_map, update_insert_absent (update_decay 3 LAMBDA _) 7 (constDraws 1)
      (by rw [hdm]; rfl)]
    show map_place 7 _ (update_decay 3 LAMBDA _).histogram_map = _
    rw [hdm]
    rfl
  have hfind1 := update_find_absent 3 LAMBDA (initial (fun _ => 0) : Histogram ℝ 1) 7
    (constDraws 1) rfl
  have hs1 : score (1 : ℝ) 1 1 1 = 1 := by
    rw [score_real _ _ _ _ (by norm_num)]
    norm_num
  have hs2 : score ((1 : ℝ) + 1) 1 1 1 = 1 / 2 := by
    rw [score_real _ _ _ _ (by norm_num)]
    norm_num
  have hh1 : ∀ i, (update 3 LAMBDA (initial (fun _ => 0) : Histogram ℝ 1) 7
      (constDraws 1)).hash i = ((1 : ℝ) : WithTop ℝ) := by
    intro i
    rw [(update_hash_at 3 LAMBDA _ 7 _ _ hfind1 i).1, hd0]
    show min (⊤ : WithTop ℝ) ((score (1 : ℝ) 1 1 1 : ℝ) : WithTop ℝ) = _
    rw [hs1, min_eq_right le_top]
  have hk1 : ∀ i, (update 3 LAMBDA (initial (fun _ => 0) : Histogram ℝ 1) 7
      (constDraws 1)).sketch i = 7 := by
    intro i
    rw [(update_hash_at 3 LAMBDA _ 7 _ _ hfind1 i).2, hd0]
    show (if ((score (1 : ℝ) 1 1 1 : ℝ) : WithTop ℝ) < ⊤ then 7 else _) = 7
    rw [if_pos (WithTop.coe_lt_top _)]
  have hfind2 := update_find_present 3 LAMBDA _ 7 (constDraws 1) _ hfind1
  rw [if_neg hf1] at hfind2
  have hd1 : update_decay 3 LAMBDA
      (update 3 LAMBDA (initial (fun _ => 0) : Histogram ℝ 1) 7 (constDraws 1))
      = { update 3 LAMBDA (initial (fun _ => 0) : Histogram ℝ 1) 7 (constDraws 1) with
          t := (update 3 LAMBDA (initial (fun _ => 0) : Histogram ℝ 1) 7
            (constDraws 1)).t + 1 } :=
    update_decay_of_not_fires 3 LAMBDA _ hf1
  have hlt : (((1 / 2 : ℝ)) : WithTop ℝ) < ((1 : ℝ) : WithTop ℝ) :=
    WithTop.coe_lt_coe.mpr (by norm_num)
  refine ⟨?_, ?_, ?_, ?_⟩
  · show (update 3 LAMBDA _ 7 (constDraws 1)).histogram_map = _
    have hdm : (update_decay 3 LAMBDA (update 3 LAMBDA
        (initial (fun _ => 0) : Histogram ℝ 1) 7 (constDraws 1))).histogram_map
        = [(7, new_elem (constDraws 1))] := by
      rw [update_decay_map, if_neg hf1, hm1]
    rw [update_map, update_insert_present (update_decay 3 LAMBDA _) 7 (constDraws 1)
      (new_elem (constDraws 1)) (by rw [hdm]; simp [map_find])]
    show map_set 7 _ (update_decay 3 LAMBDA _).histogram_map = _
    rw [hdm]
    simp [map_set, new_elem, constDraws, agedExample, one_add_one_eq_two]
  · show (update 3 LAMBDA _ 7 (constDraws 1)).t = _
    rw [update_t, if_neg hf1, ht1]
    rfl
  · intro i
    show (update 3 LAMBDA _ 7 (constDraws 1)).hash i = _
    rw [(update_hash_at 3 LAMBDA _ 7 _ _ hfind2 i).1, hd1]
    show min ((update 3 LAMBDA (initial (fun _ => 0) : Histogram ℝ 1) 7
        (constDraws 1)).hash i) ((score ((1 : ℝ) + 1) 1 1 1 : ℝ) : WithTop ℝ) = _
    rw [hh1 i, hs2, min_eq_right hlt.le]
    rfl
  · intro i
    show (update 3 LAMBDA _ 7 (constDraws 1)).sketch i = _
    rw [(update_hash_at 3 LAMBDA _ 7 _ _ hfind2 i).2, hd1]
    show (if ((score ((1 : ℝ) + 1) 1 1 1 : ℝ) : WithTop ℝ)
        < (update 3 LAMBDA (initial (fun _ => 0) : Histogram ℝ 1) 7 (constDraws 1)).hash i
      then 7 else _) = _
    rw [hh1 i, hs2, if_pos hlt]
    rfl

end Reached

/-! ## The claims -/

section Claims

/-- C1: after `update(label)` the label has an entry `e` in the map (count 1 and
the drawn arrays when the label was new; otherwise the stored arrays and the
stored count, decayed when the decay fired, plus 1), and for every slot `i`,
with `b` the value of `hash[i]` after the decay step and `sc` the score of `e`
for slot `i`: `hash[i] = min b sc`, and `sketch[i]` is the label when `sc < b`
and is unchanged otherwise. -/
theorem update_hash_sketch_contract [MathH α] [LinearOrderedField α]
    (DECAY : Int) (LAMBDA : α) (s : Histogram α K) (label : Nat) (g : Draws α K) :
    ∃ e : hist_elem α K,
      map_find label (update DECAY LAMBDA s label g).histogram_map = some e ∧
      (map_find label s.histogram_map = none →
        e = { cnt := 1, r := g.r, beta := g.beta, c := g.c }) ∧
      (∀ e0, map_find label s.histogram_map = some e0 →
        e.cnt = (if decay_fires DECAY s then e0.cnt * MathH.pow MathH.M_E (-LAMBDA)
                  else e0.cnt) + 1 ∧
        e.r = e0.r ∧ e.beta = e0.beta ∧ e.c = e0.c) ∧
      ∀ i : Fin K,
        (update DECAY LAMBDA s label g).hash i
          = min ((update_decay DECAY LAMBDA s).hash i)
              ((score e.cnt (e.r i) (e.beta i) (e.c i) : α) : WithTop α) ∧
        (update DECAY LAMBDA s label g).sketch i
          = if ((score e.cnt (e.r i) (e.beta i) (e.c i) : α) : WithTop α)
                < (update_decay DECAY LAMBDA s).hash i
            then label else s.sketch i := by
  refine ⟨(update_insert (update_decay DECAY LAMBDA s) label g).2,
    update_find_label DECAY LAMBDA s label g, ?_, ?_, ?_⟩
  · intro h0
    have h1 := update_find_absent DECAY LAMBDA s label g h0
    rw [update_find_label] at h1
    exact Option.some.inj h1
  · intro e0 h0
    have h1 := update_find_present DECAY LAMBDA s label g e0 h0
    rw [update_find_label] at h1
    rw [Option.some.inj h1]
    exact ⟨rfl, rfl, rfl, rfl⟩
  · intro i
    exact update_hash_at DECAY LAMBDA s label g _ (update_find_label DECAY LAMBDA s label g) i

/-- C2: on a non-empty store with strictly positive counts `create_sketch`
returns; it leaves the store (and `size`, `t`) unchanged; and for every slot
`i`, `hash[i]` is at most the score of every entry and equals the score of the
entry stored under `sketch[i]`. -/
theorem create_sketch_exact (s : Histogram ℝ K) (hne : s.histogram_map ≠ [])
    (hpos : ∀ p ∈ s.histogram_map, 0 < p.2.cnt) :
    ∃ s', create_sketch s = some s' ∧
      s'.histogram_map = s.histogram_map ∧ s'.size = s.size ∧ s'.t = s.t ∧
      ∀ i : Fin K,
        (∀ p ∈ s.histogram_map,
          s'.hash i ≤ ((p.2.c i * Real.exp (p.2.r i * (p.2.beta i - 1)) / p.2.cnt : ℝ)
            : WithTop ℝ)) ∧
        ∃ p ∈ s.histogram_map, s'.sketch i = p.1 ∧
          s'.hash i = ((p.2.c i * Real.exp (p.2.r i * (p.2.beta i - 1)) / p.2.cnt : ℝ)
            : WithTop ℝ) ∧
          s'.hash i = ((score p.2.cnt (p.2.r i) (p.2.beta i) (p.2.c i) : ℝ)
            : WithTop ℝ) := by
  cases hm : s.histogram_map with
  | nil => exact absurd hm hne
  | cons hd tl =>
    obtain ⟨s', e1, e2, e3, e4, _, e6, e7⟩ := create_sketch_of_cons hd tl s hm
    rw [hm] at e2 hpos
    refine ⟨s', e1, e2, e3, e4, ?_⟩
    intro i
    obtain ⟨_, h2, h3⟩ := create_sketch_scan_min i (hd :: tl)
      (score hd.2.cnt (hd.2.r i) (hd.2.beta i) (hd.2.c i), hd.1)
    constructor
    · intro p hp
      rw [e6 i, ← score_real _ _ _ _ (hpos p hp)]
      exact WithTop.coe_le_coe.mpr (h2 p hp)
    · rcases h3 with h3 | ⟨p, hp, h3⟩
      · refine ⟨hd, List.mem_cons_self _ _, ?_, ?_, ?_⟩
        · rw [e7 i, h3]
        · rw [e6 i, h3, score_real _ _ _ _ (hpos hd (List.mem_cons_self _ _))]
        · rw [e6 i, h3]
      · refine ⟨p, hp, ?_, ?_, ?_⟩
        · rw [e7 i, h3]
        · rw [e6 i, h3, score_real _ _ _ _ (hpos p hp)]
        · rw [e6 i, h3]

/-- C2, the example of the specification: with one slot, label 10 of count 2
and label 20 of count 5, all parameters 1, `create_sketch` returns with
`sketch[0] = 20` and `hash[0] = 1/5`. -/
theorem create_sketch_exact_witness :
    (exampleStore : Histogram ℝ 1).histogram_map ≠ [] ∧
    (∀ p ∈ (exampleStore : Histogram ℝ 1).histogram_map, 0 < p.2.cnt) ∧
    ∃ s', create_sketch (exampleStore : Histogram ℝ 1) = some s' ∧
      s'.histogram_map = (exampleStore : Histogram ℝ 1).histogram_map ∧
      s'.sketch 0 = 20 ∧ s'.hash 0 = ((1 / 5 : ℝ) : WithTop ℝ) := by
  have hne : (exampleStore : Histogram ℝ 1).histogram_map ≠ [] := by
    simp [exampleStore]
  have hpos : ∀ p ∈ (exampleStore : Histogram ℝ 1).histogram_map, 0 < p.2.cnt := by
    intro p hp
    simp only [exampleStore, List.mem_cons, List.mem_singleton, List.not_mem_nil,
      or_false] at hp
    rcases hp with rfl | rfl <;> norm_num
  refine ⟨hne, hpos, ?_⟩
  obtain ⟨s', h1, h2, _, _, h5⟩ := create_sketch_exact exampleStore hne hpos
  refine ⟨s', h1, h2, ?_⟩
  obtain ⟨hle, p, hp, hs, hh, _⟩ := h5 0
  have hB := hle (20, { cnt := 5, r := fun _ => 1, beta := fun _ => 1, c := fun _ => 1 })
    (by simp [exampleStore])
  simp only [exampleStore, List.mem_cons, List.mem_singleton, List.not_mem_nil,
    or_false] at hp
  rcases hp with rfl | rfl
  · exfalso
    rw [hh] at hB
    have := WithTop.coe_le_coe.mp hB
    norm_num at this
  · refine ⟨hs, ?_⟩
    rw [hh]
    norm_num

/-- C3: `insert_label(label)` on a store without the label stores under it an
entry with count 1 and the drawn arrays, and adds 1 to `size` and to the number
of entries; on a store with the label it adds exactly 1 to the count of that
entry, keeps its arrays, and keeps `size` and the number of entries; in both
cases the entry of every other key is unchanged. -/
theorem insert_label_contract [One α] [Add α] (s : Histogram α K) (label : Nat)
    (g : Draws α K) :
    (map_find label s.histogram_map = none →
      map_find label (insert_label s label g).histogram_map
        = some { cnt := 1, r := g.r, beta := g.beta, c := g.c } ∧
      (insert_label s label g).size = s.size + 1 ∧
      (insert_label s label g).histogram_map.length = s.histogram_map.length + 1) ∧
    (∀ e, map_find label s.histogram_map = some e →
      map_find label (insert_label s label g).histogram_map
        = some { cnt := e.cnt + 1, r := e.r, beta := e.beta, c := e.c } ∧
      (insert_label s label g).size = s.size ∧
      (insert_label s label g).histogram_map.length = s.histogram_map.length) ∧
    ∀ k, k ≠ label →
      map_find k (insert_label s label g).histogram_map = map_find k s.histogram_map := by
  rw [insert_label_eq]
  refine ⟨?_, ?_, (update_insert_fields s label g).2.1⟩
  · intro h
    rw [update_insert_absent s label g h]
    exact ⟨map_find_place_self _ _ _ h, rfl, map_place_length _ _ _⟩
  · intro e h
    rw [update_insert_present s label g e h]
    exact ⟨map_find_set_self _ _ _ e h, rfl, map_set_length _ _ _⟩

/-- C4: from `t = 0` and with `DECAY >= 1`, after any sequence `os` of `update`
and `insert_label` calls that holds `n - 1` calls of `update`, the next call of
`update` (the `n`-th) passes the test of line 67 exactly when `DECAY` divides
`n`, so its decay step is the aging pass then and the bare tick otherwise; and
a call of `insert_label` in that state leaves `t` and `hash` unchanged, keeps
every stored entry of another key and adds exactly 1 to the count stored under
its own label: nothing is rescaled. -/
theorem decay_cadence [MathH α] [LinearOrderedField α] (DECAY : Int) (hD : 1 ≤ DECAY)
    (LAMBDA : α) (s0 : Histogram α K) (h0 : s0.t = 0) (os : List (Obs α K)) :
    (decay_fires DECAY (runObs DECAY LAMBDA s0 os) ↔
      DECAY ∣ (((os.filter Obs.isUpdate).length + 1 : Nat) : Int)) ∧
    update_decay DECAY LAMBDA (runObs DECAY LAMBDA s0 os)
      = (if DECAY ∣ (((os.filter Obs.isUpdate).length + 1 : Nat) : Int) then
          aging_pass LAMBDA { runObs DECAY LAMBDA s0 os with
            t := (runObs DECAY LAMBDA s0 os).t + 1 }
        else { runObs DECAY LAMBDA s0 os with t := (runObs DECAY LAMBDA s0 os).t + 1 }) ∧
    ∀ (label : Nat) (g : Draws α K),
      (insert_label (runObs DECAY LAMBDA s0 os) label g).t = (runObs DECAY LAMBDA s0 os).t ∧
      (insert_label (runObs DECAY LAMBDA s0 os) label g).hash
        = (runObs DECAY LAMBDA s0 os).hash ∧
      (∀ k, k ≠ label →
        map_find k (insert_label (runObs DECAY LAMBDA s0 os) label g).histogram_map
          = map_find k (runObs DECAY LAMBDA s0 os).histogram_map) ∧
      ∀ e, map_find label (runObs DECAY LAMBDA s0 os).histogram_map = some e →
        map_find label (insert_label (runObs DECAY LAMBDA s0 os) label g).histogram_map
          = some { cnt := e.cnt + 1, r := e.r, beta := e.beta, c := e.c } := by
  have hfire : decay_fires DECAY (runObs DECAY LAMBDA s0 os) ↔
      DECAY ∣ (((os.filter Obs.isUpdate).length + 1 : Nat) : Int) := by
    unfold decay_fires
    rw [runObs_t DECAY hD LAMBDA s0 h0 os]
    exact (tick_mod DECAY hD _).2
  refine ⟨hfire, ?_, ?_⟩
  · by_cases h : decay_fires DECAY (runObs DECAY LAMBDA s0 os)
    · rw [if_pos (hfire.mp h), update_decay_of_fires DECAY LAMBDA _ h]
    · rw [if_neg (fun hd => h (hfire.mpr hd)), update_decay_of_not_fires DECAY LAMBDA _ h]
  · intro label g
    obtain ⟨h1, h2, _, _⟩ := insert_label_frame (runObs DECAY LAMBDA s0 os) label g
    refine ⟨h1, h2, ?_, ?_⟩
    · rw [insert_label_eq]
      exact (update_insert_fields _ label g).2.1
    · intro e he
      rw [insert_label_eq, update_insert_present _ label g e he]
      exact map_find_set_self _ _ _ e he

/-- C4 at a concrete run: with `DECAY = 2`, from the initial state, after one
`update` and one `insert_label` the next `update` is the second one and its
decay fires. -/
theorem decay_cadence_witness :
    (1 : Int) ≤ 2 ∧ (initial (fun _ => 0) : Histogram ℝ 1).t = 0 ∧
    decay_fires 2 (runObs 2 (1 : ℝ) (initial (fun _ => 0) : Histogram ℝ 1)
      [Obs.update 7 (constDraws 1), Obs.insert_label 3 (constDraws 1)]) :=
  ⟨by norm_num, rfl,
    (decay_cadence 2 (by norm_num) (1 : ℝ) (initial (fun _ => 0) : Histogram ℝ 1) rfl
      [Obs.update 7 (constDraws 1), Obs.insert_label 3 (constDraws 1)]).1.mpr
      (by simp [Obs.isUpdate])⟩

/-- C5: in a call of `update` whose decay fires, every entry stored before the
call under another key has its count multiplied by `exp(-LAMBDA)`, the entry
of the label ends with count `old * exp(-LAMBDA) + 1` (or 1 with the drawn
arrays when the label is new), `hash[i]` is multiplied by `exp(-LAMBDA)` in the
decay step and the final `hash[i]` is the smaller of that product and the score
of the label's final entry, and `t` ends at 0. In a call whose decay does not
fire, the entry of every other key is unchanged, the count of the label grows
by 1 and `t` grows by 1. -/
theorem update_aging_then_count (DECAY : Int) (LAMBDA : ℝ) (s : Histogram ℝ K)
    (label : Nat) (g : Draws ℝ K) :
    (decay_fires DECAY s →
      (∀ k e, k ≠ label → map_find k s.histogram_map = some e →
        map_find k (update DECAY LAMBDA s label g).histogram_map
          = some { cnt := e.cnt * Real.exp (-LAMBDA), r := e.r, beta := e.beta, c := e.c }) ∧
      (∀ e, map_find label s.histogram_map = some e →
        map_find label (update DECAY LAMBDA s label g).histogram_map
          = some { cnt := e.cnt * Real.exp (-LAMBDA) + 1,
                   r := e.r, beta := e.beta, c := e.c }) ∧
      (map_find label s.histogram_map = none →
        map_find label (update DECAY LAMBDA s label g).histogram_map
          = some { cnt := 1, r := g.r, beta := g.beta, c := g.c }) ∧
      (∀ i, (update_decay DECAY LAMBDA s).hash i
        = (s.hash i).map (fun x => x * Real.exp (-LAMBDA))) ∧
      (∀ i e, map_find label (update DECAY LAMBDA s label g).histogram_map = some e →
        (update DECAY LAMBDA s label g).hash i
          = min ((s.hash i).map (fun x => x * Real.exp (-LAMBDA)))
              ((score e.cnt (e.r i) (e.beta i) (e.c i) : ℝ) : WithTop ℝ)) ∧
      (update DECAY LAMBDA s label g).t = 0) ∧
    (¬ decay_fires DECAY s →
      (∀ k, k ≠ label →
        map_find k (update DECAY LAMBDA s label g).histogram_map
          = map_find k s.histogram_map) ∧
      (∀ e, map_find label s.histogram_map = some e →
        map_find label (update DECAY LAMBDA s label g).histogram_map
          = some { cnt := e.cnt + 1, r := e.r, beta := e.beta, c := e.c }) ∧
      (map_find label s.histogram_map = none →
        map_find label (update DECAY LAMBDA s label g).histogram_map
          = some { cnt := 1, r := g.r, beta := g.beta, c := g.c }) ∧
      (update DECAY LAMBDA s label g).t = s.t + 1) := by
  constructor
  · intro h
    have hdh : ∀ i, (update_decay DECAY LAMBDA s).hash i
        = (s.hash i).map (fun x => x * Real.exp (-LAMBDA)) := by
      intro i
      rw [update_decay_hash, if_pos h]
      simp only [pow_M_E_real]
    refine ⟨?_, ?_, update_find_absent DECAY LAMBDA s label g, hdh, ?_, ?_⟩
    · intro k e hk he
      rw [update_find_other DECAY LAMBDA s label g k hk, he]
      simp [h, pow_M_E_real]
    · intro e he
      rw [update_find_present DECAY LAMBDA s label g e he]
      simp [h, pow_M_E_real]
    · intro i e he
      rw [(update_hash_at DECAY LAMBDA s label g e he i).1, hdh i]
    · rw [update_t, if_pos h]
  · intro h
    refine ⟨?_, ?_, update_find_absent DECAY LAMBDA s label g, ?_⟩
    · intro k hk
      rw [update_find_other DECAY LAMBDA s label g k hk]
      simp only [h, if_false]
      cases map_find k s.histogram_map <;> rfl
    · intro e he
      rw [update_find_present DECAY LAMBDA s label g e he]
      simp [h]
    · rw [update_t, if_neg h]

/-- C6: from the empty store with `size = 0`, after any sequence of `update` and
`insert_label` calls the keys of the map are pairwise distinct, `size` is the
number of keys, the keys are exactly the labels that occur in the calls, so
`size` is the number of distinct labels; and one more call never lowers
`size`. -/
theorem size_counts_distinct_labels [MathH α] [LinearOrderedField α] (DECAY : Int)
    (LAMBDA : α) (s0 : Histogram α K) (hm : s0.histogram_map = []) (hz : s0.size = 0)
    (os : List (Obs α K)) :
    ((runObs DECAY LAMBDA s0 os).histogram_map.map Prod.fst).Nodup ∧
    (runObs DECAY LAMBDA s0 os).size
      = ((((runObs DECAY LAMBDA s0 os).histogram_map.map Prod.fst).toFinset.card : Nat) : Int) ∧
    ((runObs DECAY LAMBDA s0 os).histogram_map.map Prod.fst).toFinset
      = (os.map Obs.label).toFinset ∧
    (runObs DECAY LAMBDA s0 os).size = (((os.map Obs.label).toFinset.card : Nat) : Int) ∧
    ∀ o : Obs α K,
      (runObs DECAY LAMBDA s0 os).size ≤ (runObs DECAY LAMBDA s0 (os ++ [o])).size := by
  have hs0 : (s0.histogram_map.map Prod.fst).Sorted (· < ·) := by simp [hm]
  have hz0 : s0.size = (s0.histogram_map.length : Int) := by simp [hm, hz]
  obtain ⟨h1, h2, h3, _⟩ := runObs_store DECAY LAMBDA os s0 hs0 hz0
  have hnd : ((runObs DECAY LAMBDA s0 os).histogram_map.map Prod.fst).Nodup := h1.nodup
  have hset : ((runObs DECAY LAMBDA s0 os).histogram_map.map Prod.fst).toFinset
      = (os.map Obs.label).toFinset := by
    ext k
    rw [List.mem_toFinset, List.mem_toFinset, h3 k, hm]
    simp
  have hcard : (runObs DECAY LAMBDA s0 os).size
      = ((((runObs DECAY LAMBDA s0 os).histogram_map.map Prod.fst).toFinset.card : Nat)
          : Int) := by
    rw [List.toFinset_card_of_nodup hnd, List.length_map]
    exact h2
  refine ⟨hnd, hcard, hset, by rw [hcard, hset], ?_⟩
  intro o
  rw [runObs_snoc]
  exact (step_store DECAY LAMBDA _ o h1 h2).2.2.2

/-- C6 at a concrete run: from the initial state, `update(7)`, `insert_label(3)`
and `update(7)` leave `size = 2`. -/
theorem size_counts_distinct_labels_witness :
    (initial (fun _ => 0) : Histogram ℝ 1).histogram_map = [] ∧
    (initial (fun _ => 0) : Histogram ℝ 1).size = 0 ∧
    (runObs 2 (1 : ℝ) (initial (fun _ => 0) : Histogram ℝ 1)
      [Obs.update 7 (constDraws 1), Obs.insert_label 3 (constDraws 1),
       Obs.update 7 (constDraws 2)]).size = 2 := by
  refine ⟨rfl, rfl, ?_⟩
  rw [(size_counts_distinct_labels 2 (1 : ℝ) (initial (fun _ => 0) : Histogram ℝ 1) rfl rfl
    [Obs.update 7 (constDraws 1), Obs.insert_label 3 (constDraws 1),
     Obs.update 7 (constDraws 2)]).2.2.2.1]
  simp [Obs.label]

/-- C7 fails as stated: with `DECAY = 2` and `LAMBDA = ln 2` (decay factor 1/2),
two calls `update(7)` from the initial state leave label 7 with count
`1 * 1/2 + 1 = 3/2`, while the label was passed 2 times and 1 aging pass ran
after its creation, so the stated formula gives `2 * (1/2)^1 = 1`. -/
theorem count_formula_counterexample :
    agingFlags 2 (Real.log 2) (initial (fun _ => 0) : Histogram ℝ 1)
        [(7, constDraws 1), (7, constDraws 1)] = [false, true] ∧
    claimedCount (Real.exp (-(Real.log 2))) 7 [7, 7] [false, true] = 1 ∧
    ∃ e, map_find 7 (runUpdates 2 (Real.log 2) (initial (fun _ => 0) : Histogram ℝ 1)
        [(7, constDraws 1), (7, constDraws 1)]).histogram_map = some e ∧
      e.cnt = 3 / 2 ∧
      e.cnt ≠ claimedCount (Real.exp (-(Real.log 2))) 7 [7, 7]
        (agingFlags 2 (Real.log 2) (initial (fun _ => 0) : Histogram ℝ 1)
          [(7, constDraws 1), (7, constDraws 1)]) := by
  have hexp : Real.exp (-(Real.log 2)) = 1 / 2 := by
    rw [Real.exp_neg, Real.exp_log (by norm_num : (0 : ℝ) < 2)]
    norm_num
  have hf0 : ¬ decay_fires 2 (initial (fun _ => 0) : Histogram ℝ 1) := by
    simp [decay_fires, initial]
  have hf1 : decay_fires 2
      (update 2 (Real.log 2) (initial (fun _ => 0) : Histogram ℝ 1) 7 (constDraws 1)) := by
    unfold decay_fires
    rw [update_t, if_neg hf0]
    simp [initial]
  have hflags : agingFlags 2 (Real.log 2) (initial (fun _ => 0) : Histogram ℝ 1)
      [(7, constDraws 1), (7, constDraws 1)] = [false, true] := by
    simp [agingFlags, hf0, hf1]
  have hclaim : claimedCount (Real.exp (-(Real.log 2))) 7 [7, 7] [false, true] = 1 := by
    simp [claimedCount, hexp]
  have h1 := update_find_absent 2 (Real.log 2) (initial (fun _ => 0) : Histogram ℝ 1) 7
    (constDraws 1) rfl
  have h2 := update_find_present 2 (Real.log 2) _ 7 (constDraws 1) _ h1
  rw [if_pos hf1, pow_M_E_real, hexp] at h2
  refine ⟨hflags, hclaim, _, h2, by norm_num, ?_⟩
  rw [hflags, hclaim]
  norm_num

/-- C7 as amended: from the empty store, after any sequence of `update` calls a
label has an entry exactly when some call passed it, and the count of the entry
is the sum over the calls that passed the label of `exp(-LAMBDA)` to the
number of aging passes that ran in later calls. -/
theorem count_is_decayed_sum (DECAY : Int) (LAMBDA : ℝ) (s0 : Histogram ℝ K)
    (hm : s0.histogram_map = []) (us : List (Nat × Draws ℝ K)) (label : Nat) :
    (label ∉ us.map Prod.fst →
      map_find label (runUpdates DECAY LAMBDA s0 us).histogram_map = none) ∧
    (label ∈ us.map Prod.fst →
      ∃ e, map_find label (runUpdates DECAY LAMBDA s0 us).histogram_map = some e ∧
        e.cnt = decayedCount (Real.exp (-LAMBDA)) label (us.map Prod.fst)
            (agingFlags DECAY LAMBDA s0 us)) := by
  have h := runUpdates_count_absent DECAY LAMBDA label us s0 (by rw [hm]; rfl)
  rw [pow_M_E_real] at h
  exact h

/-- C7 as amended, at the run of the counterexample: the count of label 7 is
the decayed sum, `(1/2)^1 + (1/2)^0 = 3/2`. -/
theorem count_is_decayed_sum_witness :
    (initial (fun _ => 0) : Histogram ℝ 1).histogram_map = [] ∧
    decayedCount (Real.exp (-(Real.log 2))) 7 [7, 7] [false, true] = 3 / 2 ∧
    ∃ e, map_find 7 (runUpdates 2 (Real.log 2) (initial (fun _ => 0) : Histogram ℝ 1)
        [(7, constDraws 1), (7, constDraws 1)]).histogram_map = some e ∧
      e.cnt = decayedCount (Real.exp (-(Real.log 2))) 7 [7, 7]
        (agingFlags 2 (Real.log 2) (initial (fun _ => 0) : Histogram ℝ 1)
          [(7, constDraws 1), (7, constDraws 1)]) := by
  have hexp : Real.exp (-(Real.log 2)) = 1 / 2 := by
    rw [Real.exp_neg, Real.exp_log (by norm_num : (0 : ℝ) < 2)]
    norm_num
  refine ⟨rfl, ?_, ?_⟩
  · simp only [decayedCount, hexp]
    norm_num
  · exact (count_is_decayed_sum 2 (Real.log 2) (initial (fun _ => 0) : Histogram ℝ 1) rfl
      [(7, constDraws 1), (7, constDraws 1)] 7).2 (by simp)

/-- C8: when a label has an entry, every sequence of `insert_label`, `update`
and `create_sketch` calls returns, and in the state it reaches the label still
has an entry, with the same `r`, `beta` and `c` arrays, whatever values the
generators return during those calls. -/
theorem parameter_stability [MathH α] [LinearOrderedField α] (DECAY : Int) (LAMBDA : α)
    (s : Histogram α K) (label : Nat) (e : hist_elem α K)
    (h : map_find label s.histogram_map = some e) (cs : List (Call α K)) :
    ∃ s' e', runCalls DECAY LAMBDA s cs = some s' ∧
      map_find label s'.histogram_map = some e' ∧
      e'.r = e.r ∧ e'.beta = e.beta ∧ e'.c = e.c :=
  runCalls_params DECAY LAMBDA cs s label e h

/-- C8 at a concrete run: label 7 is created by `update` with all parameters
1; a second `update(7)` whose draws are 5, a `create_sketch` and an
`insert_label(7)` whose draws are 9 leave its arrays as they were. -/
theorem parameter_stability_witness :
    map_find 7 (update 2 (1 : ℝ) (initial (fun _ => 0) : Histogram ℝ 1) 7
        (constDraws 1)).histogram_map
      = some { cnt := 1, r := fun _ => 1, beta := fun _ => 1, c := fun _ => 1 } ∧
    ∃ s' e', runCalls 2 (1 : ℝ)
        (update 2 (1 : ℝ) (initial (fun _ => 0) : Histogram ℝ 1) 7 (constDraws 1))
        [Call.obs (Obs.update 7 (constDraws 5)), Call.create_sketch,
         Call.obs (Obs.insert_label 7 (constDraws 9))] = some s' ∧
      map_find 7 s'.histogram_map = some e' ∧
      e'.r = (fun _ => 1) ∧ e'.beta = (fun _ => 1) ∧ e'.c = (fun _ => 1) :=
  have h : map_find 7 (update 2 (1 : ℝ) (initial (fun _ => 0) : Histogram ℝ 1) 7
        (constDraws 1)).histogram_map
      = some { cnt := 1, r := fun _ => 1, beta := fun _ => 1, c := fun _ => 1 } :=
    update_find_absent 2 (1 : ℝ) (initial (fun _ => 0)) 7 (constDraws 1) rfl
  ⟨h, parameter_stability 2 (1 : ℝ) _ 7 _ h _⟩

/-- C9: a call of `update` whose decay does not fire leaves every `hash[i]` at
most at its value before the call. -/
theorem update_hash_nonincreasing [MathH α] [LinearOrderedField α] (DECAY : Int)
    (LAMBDA : α) (s : Histogram α K) (label : Nat) (g : Draws α K)
    (h : ¬ decay_fires DECAY s) (i : Fin K) :
    (update DECAY LAMBDA s label g).hash i ≤ s.hash i := by
  rw [(update_hash_at DECAY LAMBDA s label g _ (update_find_label DECAY LAMBDA s label g) i).1,
    update_decay_hash, if_neg h]
  exact min_le_left _ _

/-- C9 at a concrete call: with `DECAY = 3`, the second `update` after the
initial state does not fire a decay and does not raise `hash[0]`. -/
theorem update_hash_nonincreasing_witness :
    ¬ decay_fires 3 (update 3 (1 : ℝ) (initial (fun _ => 0) : Histogram ℝ 1) 7 (constDraws 1)) ∧
    (update 3 (1 : ℝ)
        (update 3 (1 : ℝ) (initial (fun _ => 0) : Histogram ℝ 1) 7 (constDraws 1))
        8 (constDraws 2)).hash 0
      ≤ (update 3 (1 : ℝ) (initial (fun _ => 0) : Histogram ℝ 1) 7 (constDraws 1)).hash 0 :=
  have h : ¬ decay_fires 3
      (update 3 (1 : ℝ) (initial (fun _ => 0) : Histogram ℝ 1) 7 (constDraws 1)) := by
    unfold decay_fires
    rw [update_t]
    simp [decay_fires, initial]
  ⟨h, update_hash_nonincreasing 3 (1 : ℝ) _ 8 (constDraws 2) h 0⟩

/-- C10: for a positive count the two-step value of lines 100-101,
`y = e^(ln(cnt) - r*beta)` and `a = c / (y * e^r)`, is
`c * exp(r * (beta - 1)) / cnt`; `update` compares this value of the label's
final entry with the decayed `hash[i]`, and `create_sketch` on a store of
positive counts leaves in `hash[i]` this value of the entry under `sketch[i]`,
which is the least one over the store. -/
theorem score_closed_form (w r beta c : ℝ) (hw : 0 < w) :
    score w r beta c = c * Real.exp (r * (beta - 1)) / w ∧
    c / (Real.exp (Real.log w - r * beta) * Real.exp r)
      = c * Real.exp (r * (beta - 1)) / w ∧
    (∀ (K : Nat) (DECAY : Int) (LAMBDA : ℝ) (s : Histogram ℝ K) (label : Nat)
        (g : Draws ℝ K) (e : hist_elem ℝ K) (i : Fin K),
      map_find label (update DECAY LAMBDA s label g).histogram_map = some e →
      0 < e.cnt →
      (update DECAY LAMBDA s label g).hash i
        = min ((update_decay DECAY LAMBDA s).hash i)
            ((e.c i * Real.exp (e.r i * (e.beta i - 1)) / e.cnt : ℝ) : WithTop ℝ)) ∧
    (∀ (K : Nat) (s : Histogram ℝ K),
      s.histogram_map ≠ [] → (∀ p ∈ s.histogram_map, 0 < p.2.cnt) →
      ∃ s', create_sketch s = some s' ∧ ∀ i : Fin K,
        (∀ p ∈ s.histogram_map,
          s'.hash i ≤ ((p.2.c i * Real.exp (p.2.r i * (p.2.beta i - 1)) / p.2.cnt : ℝ)
            : WithTop ℝ)) ∧
        ∃ p ∈ s.histogram_map, s'.sketch i = p.1 ∧
          s'.hash i = ((p.2.c i * Real.exp (p.2.r i * (p.2.beta i - 1)) / p.2.cnt : ℝ)
            : WithTop ℝ)) := by
  refine ⟨score_real w r beta c hw, ?_, ?_, ?_⟩
  · have h := score_real w r beta c hw
    simpa only [score, pow_M_E_real, log_real] using h
  · intro K DECAY LAMBDA s label g e i he hpos
    rw [(update_hash_at DECAY LAMBDA s label g e he i).1, score_real _ _ _ _ hpos]
  · intro K s hne hpos
    cases hm : s.histogram_map with
    | nil => exact absurd hm hne
    | cons hd tl =>
      obtain ⟨s1, e1, _, _, _, _, e6, e7⟩ := create_sketch_of_cons hd tl s hm
      rw [hm] at hpos
      refine ⟨s1, e1, ?_⟩
      intro i
      obtain ⟨_, h2, h3⟩ := create_sketch_scan_min i (hd :: tl)
        (score hd.2.cnt (hd.2.r i) (hd.2.beta i) (hd.2.c i), hd.1)
      constructor
      · intro p hp
        rw [e6 i, ← score_real _ _ _ _ (hpos p hp)]
        exact WithTop.coe_le_coe.mpr (h2 p hp)
      · rcases h3 with h3 | ⟨p, hp, h3⟩
        · refine ⟨hd, List.mem_cons_self _ _, ?_, ?_⟩
          · rw [e7 i, h3]
          · rw [e6 i, h3, score_real _ _ _ _ (hpos hd (List.mem_cons_self _ _))]
        · refine ⟨p, hp, ?_, ?_⟩
          · rw [e7 i, h3]
          · rw [e6 i, h3, score_real _ _ _ _ (hpos p hp)]

/-- C10 at a concrete input: count 2 and parameters 1 give the score 1/2. -/
theorem score_closed_form_witness :
    (0 : ℝ) < 2 ∧ score (2 : ℝ) 1 1 1 = 1 / 2 := by
  refine ⟨by norm_num, ?_⟩
  rw [(score_closed_form 2 1 1 1 (by norm_num)).1]
  norm_num

/-- C11: `record_sketch` writes, for the slots in order, the decimal digits of
`sketch[i]` followed by one space, and then one newline; the state after the
call is the state before it. -/
theorem record_sketch_text (s : Histogram α K) :
    (record_sketch s).1
      = String.join ((List.finRange K).map fun i =>
          (Nat.toDigits 10 (s.sketch i)).asString ++ " ") ++ "\n" ∧
    (record_sketch s).2 = s :=
  ⟨record_sketch_eq s, rfl⟩

/-- C11, the example of the specification: three slots holding 7, 2 and 9 are
written as `7 2 9 ` and a newline. -/
theorem record_sketch_text_witness :
    (record_sketch (initial ![7, 2, 9] : Histogram ℝ 3)).1 = "7 2 9 \n" := by
  rw [(record_sketch_text (initial ![7, 2, 9] : Histogram ℝ 3)).1]
  decide

/-- C12: `insert_label(label)` leaves `t`, the whole `hash` array and the whole
`sketch` array unchanged, whether or not the label is stored. -/
theorem insert_label_keeps_sketch_state [One α] [Add α] (s : Histogram α K) (label : Nat)
    (g : Draws α K) :
    (insert_label s label g).t = s.t ∧
    (∀ i, (insert_label s label g).hash i = s.hash i) ∧
    (∀ i, (insert_label s label g).sketch i = s.sketch i) := by
  obtain ⟨h1, h2, h3, _⟩ := insert_label_frame s label g
  exact ⟨h1, fun i => by rw [h2], fun i => by rw [h3]⟩

/-- C16: `update`, `insert_label`, `create_sketch` (whenever it returns) and
`record_sketch` leave the lock field as it was; `get_lock` returns exactly on a
free lock and takes it, `release_lock` returns exactly on a held lock and frees
it. -/
theorem lock_only_changed_by_guard [MathH α] [LinearOrderedField α] (DECAY : Int)
    (LAMBDA : α) (s : Histogram α K) (label : Nat) (g : Draws α K) :
    (update DECAY LAMBDA s label g).histogram_map_lock = s.histogram_map_lock ∧
    (insert_label s label g).histogram_map_lock = s.histogram_map_lock ∧
    (∀ s', create_sketch s = some s' → s'.histogram_map_lock = s.histogram_map_lock) ∧
    (record_sketch s).2.histogram_map_lock = s.histogram_map_lock ∧
    (s.histogram_map_lock = false →
      ∃ s', get_lock s = some s' ∧ s'.histogram_map_lock = true) ∧
    (s.histogram_map_lock = true → get_lock s = none) ∧
    (s.histogram_map_lock = true →
      ∃ s', release_lock s = some s' ∧ s'.histogram_map_lock = false) ∧
    (s.histogram_map_lock = false → release_lock s = none) := by
  refine ⟨?_, (insert_label_frame s label g).2.2.2,
    fun s' h => (create_sketch_frame s s' h).2.2.2, rfl, ?_, ?_, ?_, ?_⟩
  · show (update_hash _ label _).histogram_map_lock = _
    rw [(update_hash_fields _ label _).2.2.2.1, (update_insert_fields _ label g).2.2.2.2.2,
      (update_decay_frame DECAY LAMBDA s).2.2.1]
  · intro h
    exact ⟨{ s with histogram_map_lock := true }, by simp [get_lock, h], rfl⟩
  · intro h
    simp [get_lock, h]
  · intro h
    exact ⟨{ s with histogram_map_lock := false }, by simp [release_lock, h], rfl⟩
  · intro h
    simp [release_lock, h]

/-- C13: on a store without `x`, `insert_label(x)` twice followed by
`create_sketch` returns, and so does `create_sketch` on the store of one
`insert_label(x)` (same draws) in which the count of `x` is set to 2; the two
results have the same `sketch` and `hash` arrays. -/
theorem batch_init_twice_is_weight_two [MathH α] [LinearOrderedField α]
    (s : Histogram α K) (x : Nat) (g1 g2 : Draws α K)
    (h : map_find x s.histogram_map = none) :
    ∃ r r', create_sketch (insert_label (insert_label s x g1) x g2) = some r ∧
      create_sketch { insert_label s x g1 with
          histogram_map := map_set x { cnt := 2, r := g1.r, beta := g1.beta, c := g1.c }
            (insert_label s x g1).histogram_map } = some r' ∧
      r.sketch = r'.sketch ∧ r.hash = r'.hash := by
  have hne : (insert_label (insert_label s x g1) x g2).histogram_map ≠ [] := by
    intro hnil
    have hlen := congrArg List.length hnil
    rw [insert_label_twice s x g1 g2 h] at hlen
    simp only [map_set_length, List.length_nil] at hlen
    rw [insert_label_eq, update_insert_absent s x g1 h] at hlen
    simp only [map_place_length] at hlen
    omega
  obtain ⟨r, hr⟩ := create_sketch_returns _ hne
  refine ⟨r, r, hr, ?_, rfl, rfl⟩
  rw [← insert_label_twice s x g1 g2 h]
  exact hr

/-- C13 at a concrete store: label 5 inserted twice into the initial state. -/
theorem batch_init_twice_is_weight_two_witness :
    map_find 5 (initial (fun _ => 0) : Histogram ℝ 1).histogram_map = none ∧
    ∃ r r', create_sketch (insert_label
        (insert_label (initial (fun _ => 0) : Histogram ℝ 1) 5 (constDraws 1)) 5
        (constDraws 3)) = some r ∧
      create_sketch { insert_label (initial (fun _ => 0) : Histogram ℝ 1) 5 (constDraws 1) with
          histogram_map := map_set 5
            { cnt := 2, r := (constDraws (1 : ℝ)).r, beta := (constDraws (1 : ℝ)).beta,
              c := (constDraws (1 : ℝ)).c }
            (insert_label (initial (fun _ => 0) : Histogram ℝ 1) 5
              (constDraws 1)).histogram_map } = some r' ∧
      r.sketch = r'.sketch ∧ r.hash = r'.hash :=
  ⟨rfl, batch_init_twice_is_weight_two (initial (fun _ => 0) : Histogram ℝ 1) 5
    (constDraws 1) (constDraws 3) rfl⟩

/-- C15: in every state reached from the empty store by `insert_label`, `update`
and `create_sketch` calls, every stored count is strictly positive; in
particular the count of the entry that a further `update` scores is strictly
positive. -/
theorem counts_stay_positive (DECAY : Int) (LAMBDA : ℝ) (s0 s : Histogram ℝ K)
    (h0 : s0.histogram_map = []) (cs : List (Call ℝ K))
    (hrun : runCalls DECAY LAMBDA s0 cs = some s) :
    (∀ p ∈ s.histogram_map, 0 < p.2.cnt) ∧
    ∀ (label : Nat) (g : Draws ℝ K) (e : hist_elem ℝ K),
      map_find label (update DECAY LAMBDA s label g).histogram_map = some e → 0 < e.cnt := by
  have hs : countsPositive s :=
    runCalls_countsPositive DECAY LAMBDA cs s0 s (by intro p hp; rw [h0] at hp; simp at hp) hrun
  refine ⟨hs, ?_⟩
  intro label g e he
  exact update_countsPositive DECAY LAMBDA s label g hs (label, e) (map_find_mem _ _ _ he)

/-- C15 at a concrete run with a negative `LAMBDA`: after `insert_label(3)`,
`update(3)` with a decay, `create_sketch` and `update(4)`, the two counts are
positive. -/
theorem counts_stay_positive_witness :
    ∃ s, runCalls 1 (-1 : ℝ) (initial (fun _ => 0) : Histogram ℝ 1)
        [Call.obs (Obs.insert_label 3 (constDraws 1)), Call.obs (Obs.update 3 (constDraws 2)),
         Call.create_sketch, Call.obs (Obs.update 4 (constDraws 1))] = some s ∧
      ∀ p ∈ s.histogram_map, 0 < p.2.cnt := by
  obtain ⟨s, hs, _⟩ := runCalls_sketchInKeys 1 (-1 : ℝ)
    [Call.create_sketch, Call.obs (Obs.update 4 (constDraws 1))]
    (update 1 (-1 : ℝ) (insert_label (initial (fun _ => 0) : Histogram ℝ 1) 3 (constDraws 1))
      3 (constDraws 2))
    (update_sketchInKeys 1 (-1 : ℝ) _ 3 (constDraws 2)
      (fun i => Or.inl (by rw [(insert_label_frame _ 3 _).2.1]; rfl)))
  have hrun : runCalls 1 (-1 : ℝ) (initial (fun _ => 0) : Histogram ℝ 1)
      [Call.obs (Obs.insert_label 3 (constDraws 1)), Call.obs (Obs.update 3 (constDraws 2)),
       Call.create_sketch, Call.obs (Obs.update 4 (constDraws 1))] = some s := hs
  exact ⟨s, hrun, (counts_stay_positive 1 (-1 : ℝ) _ s rfl _ hrun).1⟩

/-- C20: when the state comes from `create_sketch` on a non-empty store, or from
one `update` on an initial state (empty store, every `hash[i]` infinite), every
sequence of `update`, `insert_label` and `create_sketch` calls returns, and in
the state it reaches (the starting state included) every `sketch[i]` is a key
of the map. -/
theorem sketch_labels_are_keys [MathH α] [LinearOrderedField α] (DECAY : Int) (LAMBDA : α)
    (s0 : Histogram α K)
    (hstart : (∃ pre : Histogram α K, pre.histogram_map ≠ [] ∧ create_sketch pre = some s0) ∨
      (∃ (init : Histogram α K) (label : Nat) (g : Draws α K),
        init.histogram_map = [] ∧ (∀ i, init.hash i = ⊤) ∧
        s0 = update DECAY LAMBDA init label g))
    (cs : List (Call α K)) :
    ∃ s', runCalls DECAY LAMBDA s0 cs = some s' ∧
      ∀ i, s'.sketch i ∈ s'.histogram_map.map Prod.fst := by
  have h0 : sketchInKeys s0 := by
    rcases hstart with ⟨pre, hne, hpre⟩ | ⟨init, label, g, _, htop, rfl⟩
    · exact create_sketch_sketchInKeys pre s0 hne hpre
    · exact update_sketchInKeys DECAY LAMBDA init label g (fun i => Or.inl (htop i))
  obtain ⟨s', h1, h2⟩ := runCalls_sketchInKeys DECAY LAMBDA cs s0 h0
  exact ⟨s', h1, h2.2⟩

/-- C20 at a concrete run: one `update(7)` on the initial state, then
`insert_label(3)`, `create_sketch` and `update(9)`. -/
theorem sketch_labels_are_keys_witness :
    (initial (fun _ => 0) : Histogram ℝ 2).histogram_map = [] ∧
    (∀ i, (initial (fun _ => 0) : Histogram ℝ 2).hash i = ⊤) ∧
    ∃ s', runCalls 2 (1 : ℝ)
        (update 2 (1 : ℝ) (initial (fun _ => 0) : Histogram ℝ 2) 7 (constDraws 1))
        [Call.obs (Obs.insert_label 3 (constDraws 1)), Call.create_sketch,
         Call.obs (Obs.update 9 (constDraws 2))] = some s' ∧
      ∀ i, s'.sketch i ∈ s'.histogram_map.map Prod.fst :=
  ⟨rfl, fun _ => rfl,
    sketch_labels_are_keys 2 (1 : ℝ) _
      (Or.inr ⟨initial (fun _ => 0), 7, constDraws 1, rfl, fun _ => rfl, rfl⟩) _⟩

/-- C14: from a state with positive counts and positive `c` parameters in which
every `hash[i]` is at most the score of every entry and is the score of an
entry stored under `sketch[i]`, the same two facts hold after every sequence of
`update` calls in which no decay fires and whose drawn `c` parameters are
positive. -/
theorem exactness_between_decays (DECAY : Int) (LAMBDA : ℝ) (s : Histogram ℝ K)
    (us : List (Nat × Draws ℝ K))
    (hw : ∀ p ∈ s.histogram_map, 0 < p.2.cnt)
    (hc : ∀ p ∈ s.histogram_map, ∀ i, 0 < p.2.c i)
    (hmin : ∀ i, ∀ p ∈ s.histogram_map,
      s.hash i ≤ ((score p.2.cnt (p.2.r i) (p.2.beta i) (p.2.c i) : ℝ) : WithTop ℝ))
    (hatt : ∀ i, ∃ p ∈ s.histogram_map, p.1 = s.sketch i ∧
      s.hash i = ((score p.2.cnt (p.2.r i) (p.2.beta i) (p.2.c i) : ℝ) : WithTop ℝ))
    (hdraw : ∀ u ∈ us, ∀ i, 0 < u.2.c i)
    (hno : true ∉ agingFlags DECAY LAMBDA s us) :
    (∀ i, ∀ p ∈ (runUpdates DECAY LAMBDA s us).histogram_map,
      (runUpdates DECAY LAMBDA s us).hash i
        ≤ ((score p.2.cnt (p.2.r i) (p.2.beta i) (p.2.c i) : ℝ) : WithTop ℝ)) ∧
    (∀ i, ∃ p ∈ (runUpdates DECAY LAMBDA s us).histogram_map,
      p.1 = (runUpdates DECAY LAMBDA s us).sketch i ∧
      (runUpdates DECAY LAMBDA s us).hash i
        = ((score p.2.cnt (p.2.r i) (p.2.beta i) (p.2.c i) : ℝ) : WithTop ℝ)) :=
  runUpdates_exact DECAY LAMBDA us s hw hc hmin hatt hdraw hno

/-- C14 at a concrete run: from the state right after `create_sketch` on the
example store, `update(10)` and `update(30)` with `DECAY = 5` fire no decay and
leave the hash exact. -/
theorem exactness_between_decays_witness :
    true ∉ agingFlags 5 (1 : ℝ) (exampleSketched : Histogram ℝ 1)
      [(10, constDraws 1), (30, constDraws 1)] ∧
    (∀ i, ∀ p ∈ (runUpdates 5 (1 : ℝ) (exampleSketched : Histogram ℝ 1)
        [(10, constDraws 1), (30, constDraws 1)]).histogram_map,
      (runUpdates 5 (1 : ℝ) (exampleSketched : Histogram ℝ 1)
        [(10, constDraws 1), (30, constDraws 1)]).hash i
        ≤ ((score p.2.cnt (p.2.r i) (p.2.beta i) (p.2.c i) : ℝ) : WithTop ℝ)) ∧
    (∀ i, ∃ p ∈ (runUpdates 5 (1 : ℝ) (exampleSketched : Histogram ℝ 1)
        [(10, constDraws 1), (30, constDraws 1)]).histogram_map,
      p.1 = (runUpdates 5 (1 : ℝ) (exampleSketched : Histogram ℝ 1)
        [(10, constDraws 1), (30, constDraws 1)]).sketch i ∧
      (runUpdates 5 (1 : ℝ) (exampleSketched : Histogram ℝ 1)
        [(10, constDraws 1), (30, constDraws 1)]).hash i
        = ((score p.2.cnt (p.2.r i) (p.2.beta i) (p.2.c i) : ℝ) : WithTop ℝ)) := by
  have hw : ∀ p ∈ (exampleSketched : Histogram ℝ 1).histogram_map, 0 < p.2.cnt := by
    intro p hp
    simp only [exampleSketched, List.mem_cons, List.mem_singleton, List.not_mem_nil,
      or_false] at hp
    rcases hp with rfl | rfl <;> norm_num
  have hc : ∀ p ∈ (exampleSketched : Histogram ℝ 1).histogram_map, ∀ i, 0 < p.2.c i := by
    intro p hp i
    simp only [exampleSketched, List.mem_cons, List.mem_singleton, List.not_mem_nil,
      or_false] at hp
    rcases hp with rfl | rfl <;> norm_num
  have hmin : ∀ i, ∀ p ∈ (exampleSketched : Histogram ℝ 1).histogram_map,
      (exampleSketched : Histogram ℝ 1).hash i
        ≤ ((score p.2.cnt (p.2.r i) (p.2.beta i) (p.2.c i) : ℝ) : WithTop ℝ) := by
    intro i p hp
    rw [score_real _ _ _ _ (hw p hp)]
    simp only [exampleSketched, List.mem_cons, List.mem_singleton, List.not_mem_nil,
      or_false] at hp
    rcases hp with rfl | rfl <;>
      · apply WithTop.coe_le_coe.mpr
        norm_num
  have hatt : ∀ i, ∃ p ∈ (exampleSketched : Histogram ℝ 1).histogram_map,
      p.1 = (exampleSketched : Histogram ℝ 1).sketch i ∧
      (exampleSketched : Histogram ℝ 1).hash i
        = ((score p.2.cnt (p.2.r i) (p.2.beta i) (p.2.c i) : ℝ) : WithTop ℝ) := by
    intro i
    refine ⟨(20, { cnt := 5, r := fun _ => 1, beta := fun _ => 1, c := fun _ => 1 }),
      by simp [exampleSketched], rfl, ?_⟩
    rw [score_real _ _ _ _ (by norm_num)]
    simp only [exampleSketched]
    apply WithTop.coe_eq_coe.mpr
    norm_num
  have hdraw : ∀ u ∈ [((10 : Nat), (constDraws 1 : Draws ℝ 1)), (30, constDraws 1)],
      ∀ i, 0 < u.2.c i := by
    intro u hu i
    simp only [List.mem_cons, List.mem_singleton, List.not_mem_nil, or_false] at hu
    rcases hu with rfl | rfl <;> simp [constDraws]
  have hf0 : ¬ decay_fires 5 (exampleSketched : Histogram ℝ 1) := by
    simp [decay_fires, exampleSketched]
  have hf1 : ¬ decay_fires 5
      (update 5 (1 : ℝ) (exampleSketched : Histogram ℝ 1) 10 (constDraws 1)) := by
    unfold decay_fires
    rw [update_t, if_neg hf0]
    simp [exampleSketched]
  have hno : true ∉ agingFlags 5 (1 : ℝ) (exampleSketched : Histogram ℝ 1)
      [(10, constDraws 1), (30, constDraws 1)] := by
    simp [agingFlags, hf0, hf1]
  exact ⟨hno, exactness_between_decays 5 (1 : ℝ) exampleSketched _ hw hc hmin hatt hdraw hno⟩

/-- C18: with `LAMBDA >= 0`, from the initial state (empty store, every `hash[i]`
infinite) or from the state right after `create_sketch` on a non-empty store of
positive counts and positive `c` parameters, after every sequence of `update`
calls (decays included) whose drawn `c` parameters are positive, every
`hash[i]` is at most the score of every stored entry for slot `i`. -/
theorem hash_never_overestimates (DECAY : Int) (LAMBDA : ℝ) (hl : 0 ≤ LAMBDA)
    (s0 : Histogram ℝ K)
    (hstart : (s0.histogram_map = [] ∧ ∀ i, s0.hash i = ⊤) ∨
      (∃ pre : Histogram ℝ K, pre.histogram_map ≠ [] ∧
        (∀ p ∈ pre.histogram_map, 0 < p.2.cnt) ∧
        (∀ p ∈ pre.histogram_map, ∀ i, 0 < p.2.c i) ∧ create_sketch pre = some s0))
    (us : List (Nat × Draws ℝ K)) (hdraw : ∀ u ∈ us, ∀ i, 0 < u.2.c i) :
    ∀ i, ∀ p ∈ (runUpdates DECAY LAMBDA s0 us).histogram_map,
      (runUpdates DECAY LAMBDA s0 us).hash i
        ≤ ((score p.2.cnt (p.2.r i) (p.2.beta i) (p.2.c i) : ℝ) : WithTop ℝ) := by
  have h0 : countsPositive s0 ∧ csPositive s0 ∧ hashBelowScores s0 := by
    rcases hstart with ⟨hm, _⟩ | ⟨pre, hne, hw, hc, hpre⟩
    · refine ⟨?_, ?_, ?_⟩
      · intro p hp
        rw [hm] at hp
        simp at hp
      · intro p hp
        rw [hm] at hp
        simp at hp
      · intro i p hp
        rw [hm] at hp
        simp at hp
    · have hmap := (create_sketch_frame pre s0 hpre).1
      refine ⟨?_, ?_, create_sketch_hashBelowScores pre s0 hpre hne⟩
      · intro p hp
        rw [hmap] at hp
        exact hw p hp
      · intro p hp
        rw [hmap] at hp
        exact hc p hp
  exact runUpdates_hashBelowScores DECAY LAMBDA hl us s0 h0.1 h0.2.1 h0.2.2 hdraw

/-- C18 at a concrete run: from the initial state with `DECAY = 1` and
`LAMBDA = 1`, two calls `update(7)`, each with a decay. -/
theorem hash_never_overestimates_witness :
    (0 : ℝ) ≤ 1 ∧
    (initial (fun _ => 0) : Histogram ℝ 1).histogram_map = [] ∧
    (∀ i, (initial (fun _ => 0) : Histogram ℝ 1).hash i = ⊤) ∧
    ∀ i, ∀ p ∈ (runUpdates 1 (1 : ℝ) (initial (fun _ => 0) : Histogram ℝ 1)
        [(7, constDraws 1), (7, constDraws 1)]).histogram_map,
      (runUpdates 1 (1 : ℝ) (initial (fun _ => 0) : Histogram ℝ 1)
        [(7, constDraws 1), (7, constDraws 1)]).hash i
        ≤ ((score p.2.cnt (p.2.r i) (p.2.beta i) (p.2.c i) : ℝ) : WithTop ℝ) :=
  ⟨zero_le_one, rfl, fun _ => rfl,
    hash_never_overestimates 1 (1 : ℝ) zero_le_one _ (Or.inl ⟨rfl, fun _ => rfl⟩) _
      (by
        intro u hu i
        simp only [List.mem_cons, List.mem_singleton, List.not_mem_nil, or_false] at hu
        rcases hu with rfl | rfl <;> simp [constDraws])⟩

/-- C17 fails as stated: in the state `agedExample` (`DECAY = 3`,
`LAMBDA = ln 2`) the next `update` fires a decay and `hash[0] = 1/2` is the
score of the entry of `sketch[0] = 7` under its count 2; right after the aging
pass the count is 1, so the score of that entry is 1, while `hash[0]` is
`1/2 * 1/2 = 1/4`: the hash was multiplied by `exp(-LAMBDA)` where the score
was divided by it. -/
theorem aging_pass_breaks_consistency :
    decay_fires 3 (agedExample : Histogram ℝ 1) ∧
    map_find ((agedExample : Histogram ℝ 1).sketch 0) (agedExample : Histogram ℝ 1).histogram_map
      = some { cnt := 2, r := fun _ => 1, beta := fun _ => 1, c := fun _ => 1 } ∧
    (agedExample : Histogram ℝ 1).hash 0 = ((score (2 : ℝ) 1 1 1 : ℝ) : WithTop ℝ) ∧
    map_find ((update_decay 3 (Real.log 2) (agedExample : Histogram ℝ 1)).sketch 0)
        (update_decay 3 (Real.log 2) (agedExample : Histogram ℝ 1)).histogram_map
      = some { cnt := 1, r := fun _ => 1, beta := fun _ => 1, c := fun _ => 1 } ∧
    score (1 : ℝ) 1 1 1 = 1 ∧
    (update_decay 3 (Real.log 2) (agedExample : Histogram ℝ 1)).hash 0
      = ((1 / 4 : ℝ) : WithTop ℝ) ∧
    (update_decay 3 (Real.log 2) (agedExample : Histogram ℝ 1)).hash 0
      ≠ ((score (1 : ℝ) 1 1 1 : ℝ) : WithTop ℝ) := by
  have hexp : Real.exp (-(Real.log 2)) = 1 / 2 := by
    rw [Real.exp_neg, Real.exp_log (by norm_num : (0 : ℝ) < 2)]
    norm_num
  have hf : decay_fires 3 (agedExample : Histogram ℝ 1) := by
    simp [decay_fires, agedExample]
  have hs2 : score (2 : ℝ) 1 1 1 = 1 / 2 := by
    rw [score_real _ _ _ _ (by norm_num)]
    norm_num
  have hs1 : score (1 : ℝ) 1 1 1 = 1 := by
    rw [score_real _ _ _ _ (by norm_num)]
    norm_num
  have hh : (update_decay 3 (Real.log 2) (agedExample : Histogram ℝ 1)).hash 0
      = ((1 / 4 : ℝ) : WithTop ℝ) := by
    rw [update_decay_hash, if_pos hf, pow_M_E_real, hexp]
    simp only [agedExample, WithTop.map_coe]
    apply WithTop.coe_eq_coe.mpr
    norm_num
  refine ⟨hf, rfl, ?_, ?_, hs1, hh, ?_⟩
  · rw [hs2]
    rfl
  · rw [(update_decay_frame 3 (Real.log 2) agedExample).2.1,
      (update_decay_frame 3 (Real.log 2) agedExample).2.2.2.2]
    simp only [hf, if_true, pow_M_E_real, hexp]
    simp only [agedExample, map_find, if_true, Option.map_some']
    norm_num
  · rw [hh, hs1]
    intro h
    have := WithTop.coe_eq_coe.mp h
    norm_num at this

/-- C17 as amended: when the decay of an `update` call fires and `hash[i]` is
the score of the entry of `sketch[i]` under its stored positive count, then
right after the aging pass `sketch[i]` is unchanged, its entry has the count
multiplied by `exp(-LAMBDA)` and the same parameters, and `hash[i]` is
`exp(-LAMBDA)` times the old score, which is `exp(-2 * LAMBDA)` times the score
of that entry under its rescaled count; the two agree when `LAMBDA = 0`. -/
theorem aging_pass_scales_hash (DECAY : Int) (LAMBDA : ℝ) (s : Histogram ℝ K) (i : Fin K)
    (e : hist_elem ℝ K) (hf : decay_fires DECAY s)
    (he : map_find (s.sketch i) s.histogram_map = some e) (hpos : 0 < e.cnt)
    (hh : s.hash i = ((score e.cnt (e.r i) (e.beta i) (e.c i) : ℝ) : WithTop ℝ)) :
    (update_decay DECAY LAMBDA s).sketch i = s.sketch i ∧
    map_find ((update_decay DECAY LAMBDA s).sketch i)
        (update_decay DECAY LAMBDA s).histogram_map
      = some { cnt := e.cnt * Real.exp (-LAMBDA), r := e.r, beta := e.beta, c := e.c } ∧
    (update_decay DECAY LAMBDA s).hash i
      = ((Real.exp (-LAMBDA) * score e.cnt (e.r i) (e.beta i) (e.c i) : ℝ) : WithTop ℝ) ∧
    (update_decay DECAY LAMBDA s).hash i
      = ((Real.exp (-(2 * LAMBDA))
          * score (e.cnt * Real.exp (-LAMBDA)) (e.r i) (e.beta i) (e.c i) : ℝ) : WithTop ℝ) ∧
    (LAMBDA = 0 →
      (update_decay DECAY LAMBDA s).hash i
        = ((score (e.cnt * Real.exp (-LAMBDA)) (e.r i) (e.beta i) (e.c i) : ℝ)
            : WithTop ℝ)) := by
  have hf0 : 0 < Real.exp (-LAMBDA) := Real.exp_pos _
  have hsk : (update_decay DECAY LAMBDA s).sketch i = s.sketch i := by
    rw [(update_decay_frame DECAY LAMBDA s).2.1]
  have hhash : (update_decay DECAY LAMBDA s).hash i
      = ((Real.exp (-LAMBDA) * score e.cnt (e.r i) (e.beta i) (e.c i) : ℝ) : WithTop ℝ) := by
    rw [update_decay_hash, if_pos hf, hh, pow_M_E_real, WithTop.map_coe, mul_comm]
  have h2 : Real.exp (-(2 * LAMBDA)) = Real.exp (-LAMBDA) * Real.exp (-LAMBDA) := by
    rw [← Real.exp_add]
    congr 1
    ring
  have hscale : Real.exp (-LAMBDA) * score e.cnt (e.r i) (e.beta i) (e.c i)
      = Real.exp (-(2 * LAMBDA))
          * score (e.cnt * Real.exp (-LAMBDA)) (e.r i) (e.beta i) (e.c i) := by
    rw [score_scale _ _ _ _ _ hpos hf0, h2]
    field_simp
    ring
  refine ⟨hsk, ?_, hhash, ?_, ?_⟩
  · rw [hsk, (update_decay_frame DECAY LAMBDA s).2.2.2.2, he]
    simp only [hf, if_true, pow_M_E_real, Option.map_some']
  · rw [hhash, hscale]
  · intro h0
    rw [hhash, hscale, h0]
    simp

/-- C17 as amended, at the state of the counterexample: `hash[0]` goes from
1/2 to `exp(-ln 2) * 1/2`, that is `exp(-2 ln 2)` times the score under the
count `2 * exp(-ln 2)`. -/
theorem aging_pass_scales_hash_witness :
    decay_fires 3 (agedExample : Histogram ℝ 1) ∧
    map_find ((agedExample : Histogram ℝ 1).sketch 0)
        (agedExample : Histogram ℝ 1).histogram_map
      = some { cnt := 2, r := fun _ => 1, beta := fun _ => 1, c := fun _ => 1 } ∧
    (update_decay 3 (Real.log 2) (agedExample : Histogram ℝ 1)).hash 0
      = ((Real.exp (-(Real.log 2)) * score (2 : ℝ) 1 1 1 : ℝ) : WithTop ℝ) ∧
    (update_decay 3 (Real.log 2) (agedExample : Histogram ℝ 1)).hash 0
      = ((Real.exp (-(2 * Real.log 2))
          * score ((2 : ℝ) * Real.exp (-(Real.log 2))) 1 1 1 : ℝ) : WithTop ℝ) := by
  have hf : decay_fires 3 (agedExample : Histogram ℝ 1) := by
    simp [decay_fires, agedExample]
  have hs2 : score (2 : ℝ) 1 1 1 = 1 / 2 := by
    rw [score_real _ _ _ _ (by norm_num)]
    norm_num
  have hh : (agedExample : Histogram ℝ 1).hash 0
      = ((score (2 : ℝ) 1 1 1 : ℝ) : WithTop ℝ) := by
    rw [hs2]
    rfl
  obtain ⟨_, _, h3, h4, _⟩ :=
    aging_pass_scales_hash 3 (Real.log 2) (agedExample : Histogram ℝ 1) 0
      { cnt := 2, r := fun _ => 1, beta := fun _ => 1, c := fun _ => 1 } hf rfl
      (by norm_num) hh
  exact ⟨hf, rfl, h3, h4⟩

/-- C19: on a non-empty map with ascending keys `create_sketch` returns, and
for every slot `hash[i]` is the minimal score (at most the score of every
entry, and the score of the entry under `sketch[i]`) and `sketch[i]` is the
smallest label among the entries that attain it: its key is at most the key of
every entry whose score is `hash[i]`. In `update`, a score equal to `hash[i]`
(as it is after the decay step) leaves `sketch[i]` unchanged. -/
theorem tie_breaking [MathH α] [LinearOrderedField α] (s : Histogram α K)
    (hne : s.histogram_map ≠ [])
    (hs : (s.histogram_map.map Prod.fst).Sorted (· < ·)) :
    (∃ s', create_sketch s = some s' ∧ ∀ i : Fin K,
      (∀ q ∈ s.histogram_map,
        s'.hash i ≤ ((score q.2.cnt (q.2.r i) (q.2.beta i) (q.2.c i) : α) : WithTop α)) ∧
      (∃ p ∈ s.histogram_map, p.1 = s'.sketch i ∧
        s'.hash i = ((score p.2.cnt (p.2.r i) (p.2.beta i) (p.2.c i) : α) : WithTop α)) ∧
      ∀ q ∈ s.histogram_map,
        s'.hash i = ((score q.2.cnt (q.2.r i) (q.2.beta i) (q.2.c i) : α) : WithTop α) →
        s'.sketch i ≤ q.1) ∧
    ∀ (DECAY : Int) (LAMBDA : α) (label : Nat) (g : Draws α K) (e : hist_elem α K)
      (i : Fin K),
      map_find label (update DECAY LAMBDA s label g).histogram_map = some e →
      ((score e.cnt (e.r i) (e.beta i) (e.c i) : α) : WithTop α)
        = (update_decay DECAY LAMBDA s).hash i →
      (update DECAY LAMBDA s label g).sketch i = s.sketch i := by
  constructor
  · cases hm : s.histogram_map with
    | nil => exact absurd hm hne
    | cons hd tl =>
      obtain ⟨s', e1, _, _, _, _, e6, e7⟩ := create_sketch_of_cons hd tl s hm
      rw [hm] at hs
      refine ⟨s', e1, ?_⟩
      intro i
      refine ⟨?_, ?_, ?_⟩
      · intro q hq
        rw [e6 i]
        exact WithTop.coe_le_coe.mpr
          ((create_sketch_scan_min i (hd :: tl)
            (score hd.2.cnt (hd.2.r i) (hd.2.beta i) (hd.2.c i), hd.1)).2.1 q hq)
      · rcases (create_sketch_scan_min i (hd :: tl)
          (score hd.2.cnt (hd.2.r i) (hd.2.beta i) (hd.2.c i), hd.1)).2.2 with
          h3 | ⟨p, hp, h3⟩
        · exact ⟨hd, List.mem_cons_self _ _, by rw [e7 i, h3], by rw [e6 i, h3]⟩
        · exact ⟨p, hp, by rw [e7 i, h3], by rw [e6 i, h3]⟩
      · intro q hq he
        rw [e6 i] at he
        rw [e7 i]
        exact create_sketch_scan_smallest i hd tl hs q hq (WithTop.coe_eq_coe.mp he).symm
  · intro DECAY LAMBDA label g e i he heq
    rw [(update_hash_at DECAY LAMBDA s label g e he i).2, heq, if_neg (lt_irrefl _)]

/-- C19 at a concrete store: label 5 has score 1/2, labels 10 and 20 both have
the least score 1/5, and `create_sketch` puts the smaller of the two, label
10, into `sketch[0]`, with `hash[0] = 1/5`. -/
theorem tie_breaking_witness :
    (tieStore : Histogram ℝ 1).histogram_map ≠ [] ∧
    ((tieStore : Histogram ℝ 1).histogram_map.map Prod.fst).Sorted (· < ·) ∧
    ∃ s', create_sketch (tieStore : Histogram ℝ 1) = some s' ∧ s'.sketch 0 = 10 ∧
      s'.hash 0 = ((1 / 5 : ℝ) : WithTop ℝ) := by
  have hne : (tieStore : Histogram ℝ 1).histogram_map ≠ [] := by simp [tieStore]
  have hs : ((tieStore : Histogram ℝ 1).histogram_map.map Prod.fst).Sorted (· < ·) := by
    simp [tieStore]
  have hs2 : score (2 : ℝ) 1 1 1 = 1 / 2 := by
    rw [score_real _ _ _ _ (by norm_num)]
    norm_num
  have hs5 : score (5 : ℝ) 1 1 1 = 1 / 5 := by
    rw [score_real _ _ _ _ (by norm_num)]
    norm_num
  refine ⟨hne, hs, ?_⟩
  obtain ⟨s', h1, h2⟩ := (tie_breaking (tieStore : Histogram ℝ 1) hne hs).1
  refine ⟨s', h1, ?_⟩
  obtain ⟨hlow, ⟨p, hp, hp1, hp2⟩, hmin⟩ := h2 0
  have hle : s'.hash 0 ≤ ((1 / 5 : ℝ) : WithTop ℝ) := by
    have := hlow (10, { cnt := 5, r := fun _ => 1, beta := fun _ => 1, c := fun _ => 1 })
      (by simp [tieStore])
    rw [← hs5]
    exact this
  simp only [tieStore, List.mem_cons, List.mem_singleton, List.not_mem_nil, or_false] at hp
  rcases hp with rfl | rfl | rfl
  · exfalso
    have h12 : s'.hash 0 = ((1 / 2 : ℝ) : WithTop ℝ) := by
      rw [hp2, ← hs2]
    rw [h12] at hle
    have := WithTop.coe_le_coe.mp hle
    norm_num at this
  · refine ⟨hp1.symm, ?_⟩
    rw [hp2, ← hs5]
  · exfalso
    have h10 : s'.sketch 0 ≤ 10 :=
      hmin (10, { cnt := 5, r := fun _ => 1, beta := fun _ => 1, c := fun _ => 1 })
        (by simp [tieStore]) hp2
    rw [← hp1] at h10
    norm_num at h10

end Claims

end Histogram
